import Mathlib

/-!
Verification of the bank-queue discrete-event simulation.

The development shallowly embeds the Python sources: the `heapq`-backed
priority queues (`event.EventQueue`, `bank_queue.BankQueue`), the customer and
teller data model (`customer.Customer`, `teller.Teller`), the controller
assignment loop (`bank.Bank.try_assign_customer_to_teller`, driven by
`simulator.Simulator._try_start_service`) and the metric computations
(`statistics.SimulationStatistics`, prototype `metrics.Metrics`).

Simulation timestamps and durations are modelled as rationals; the Python
`float` values in the sources are only ordered, added and subtracted here,
never rounded, so the embedding is exact.  The CPython `heapq` routines
(`heappush`, `heappop`, `heapify`, `_siftdown`, `_siftup`) used by the
sources are embedded operation by operation in the `PyHeap` namespace.
-/

namespace PyHeap

variable {α : Type}

/-- CPython `heapq._siftdown(heap, startpos, pos)` where `newitem` is the item
being bubbled up.  Python reads `newitem = heap[pos]` on entry and finally
stores `heap[pos] = newitem`; here `newitem` is passed explicitly, which gives
the same resulting list because the stale cell at `pos` is always overwritten
before it is read. -/
def siftdownLoop (lt : α → α → Bool) (heap : List α) (startpos pos : Nat) (newitem : α) :
    List α :=
  if _h : startpos < pos then
    match heap[(pos - 1) / 2]? with
    | some parent =>
      if lt newitem parent then
        siftdownLoop lt (heap.set pos parent) startpos ((pos - 1) / 2) newitem
      else
        heap.set pos newitem
    | none => heap.set pos newitem
  else
    heap.set pos newitem
termination_by pos
decreasing_by omega

/-- CPython `heapq.heappush(heap, item)`: append, then sift down from the new
leaf towards the root. -/
def heappush (lt : α → α → Bool) (heap : List α) (item : α) : List α :=
  siftdownLoop lt (heap ++ [item]) 0 heap.length item

/-- The child position selected by the loop body of CPython `heapq._siftup`:
the right child is chosen exactly when it exists and the left child is not
smaller than it. -/
def minChild (lt : α → α → Bool) (heap : List α) (pos : Nat) : Nat :=
  match heap[2 * pos + 1]?, heap[2 * pos + 2]? with
  | some l, some r => if lt l r then 2 * pos + 1 else 2 * pos + 2
  | _, _ => 2 * pos + 1

theorem minChild_eq_or (lt : α → α → Bool) (heap : List α) (pos : Nat) :
    minChild lt heap pos = 2 * pos + 1 ∨ minChild lt heap pos = 2 * pos + 2 := by
  unfold minChild
  cases h1 : heap[2 * pos + 1]? with
  | none =>
    cases h2 : heap[2 * pos + 2]? with
    | none => exact Or.inl rfl
    | some r => exact Or.inl rfl
  | some l =>
    cases h2 : heap[2 * pos + 2]? with
    | none => exact Or.inl rfl
    | some r =>
      dsimp only
      by_cases hb : lt l r = true
      · rw [if_pos hb]
        exact Or.inl rfl
      · rw [if_neg hb]
        exact Or.inr rfl

theorem lt_minChild (lt : α → α → Bool) (heap : List α) (pos : Nat) :
    pos < minChild lt heap pos := by
  rcases minChild_eq_or lt heap pos with h | h <;> omega

theorem minChild_lt_length (lt : α → α → Bool) (heap : List α) (pos : Nat)
    (h : 2 * pos + 1 < heap.length) : minChild lt heap pos < heap.length := by
  unfold minChild
  cases h1 : heap[2 * pos + 1]? with
  | none =>
    cases h2 : heap[2 * pos + 2]? with
    | none => exact h
    | some r => exact h
  | some l =>
    cases h2 : heap[2 * pos + 2]? with
    | none => exact h
    | some r =>
      have h2len : 2 * pos + 2 < heap.length := by
        rcases List.getElem?_eq_some.mp h2 with ⟨hl, _⟩
        exact hl
      dsimp only
      by_cases hb : lt l r = true
      · rw [if_pos hb]
        exact h
      · rw [if_neg hb]
        exact h2len

/-- The walk-to-a-leaf phase of CPython `heapq._siftup(heap, pos)`: the hole
at `pos` repeatedly receives its smaller child and moves down to that child,
until the hole has no left child.  Returns the written list and the final
hole position. -/
def siftupLoop (lt : α → α → Bool) (heap : List α) (pos : Nat) : List α × Nat :=
  if _h : 2 * pos + 1 < heap.length then
    if hc : minChild lt heap pos < heap.length then
      siftupLoop lt (heap.set pos (heap.get ⟨minChild lt heap pos, hc⟩)) (minChild lt heap pos)
    else (heap, pos)
  else (heap, pos)
termination_by heap.length - pos
decreasing_by
  simp only [List.length_set]
  have := lt_minChild lt heap pos
  omega

/-- CPython `heapq._siftup(heap, pos)`: remember `newitem = heap[pos]`, walk
the hole to a leaf along smaller children, then bubble `newitem` back up with
`_siftdown(heap, pos, leafpos)`. -/
def siftup (lt : α → α → Bool) (heap : List α) (pos : Nat) : List α :=
  match heap[pos]? with
  | some newitem =>
    let r := siftupLoop lt heap pos
    siftdownLoop lt r.1 pos r.2 newitem
  | none => heap

/-- CPython `heapq.heappop(heap)`: remove the last element; if the heap is
still non-empty, save the root as the return value, move the last element to
the root and restore the invariant with `_siftup(heap, 0)`.  Returns `none`
on an empty heap (the callers in the sources guard this case). -/
def heappop (lt : α → α → Bool) (heap : List α) : Option (α × List α) :=
  match heap.getLast? with
  | none => none
  | some lastelt =>
    let rest := heap.dropLast
    match rest[0]? with
    | some returnitem => some (returnitem, siftup lt (rest.set 0 lastelt) 0)
    | none => some (lastelt, rest)

/-- The loop of CPython `heapq.heapify(x)`:
`for i in reversed(range(n//2)): _siftup(x, i)`. -/
def heapifyLoop (lt : α → α → Bool) : Nat → List α → List α
  | 0, heap => heap
  | i + 1, heap => heapifyLoop lt i (siftup lt heap i)

/-- CPython `heapq.heapify(x)`. -/
def heapify (lt : α → α → Bool) (heap : List α) : List α :=
  heapifyLoop lt (heap.length / 2) heap

/-- Repeatedly `heappop` until the heap is empty, collecting the popped
elements in order; the fuel argument bounds the number of pops. -/
def drainAux (lt : α → α → Bool) : Nat → List α → List α
  | 0, _ => []
  | n + 1, heap =>
    match heappop lt heap with
    | none => []
    | some (m, h2) => m :: drainAux lt n h2

/-- All elements of the heap in pop order. -/
def drain (lt : α → α → Bool) (heap : List α) : List α :=
  drainAux lt heap.length heap

/-! ### Permutation lemmas for the heap operations -/

theorem set_get_self (l : List α) (i : Nat) (h : i < l.length) :
    l.set i (l.get ⟨i, h⟩) = l := by
  apply List.ext_getElem (by simp)
  intro j h1 h2
  by_cases hij : i = j
  · subst hij
    simp
  · simp [List.getElem_set_ne hij]

theorem cons_get_set_perm (t : List α) (m : Nat) (x : α) (hm : m < t.length) :
    ((t.get ⟨m, hm⟩) :: t.set m x).Perm (x :: t) := by
  induction t generalizing m with
  | nil => simp at hm
  | cons b t2 ih =>
    cases m with
    | zero => simpa using List.Perm.swap x b t2
    | succ k =>
      have hk : k < t2.length := by simpa using hm
      show (t2.get ⟨k, hk⟩ :: b :: t2.set k x).Perm (x :: b :: t2)
      exact ((List.Perm.swap b (t2.get ⟨k, hk⟩) (t2.set k x)).trans
        ((ih k hk).cons b)).trans (List.Perm.swap x b t2)

theorem set_get_set_perm (l : List α) (i j : Nat) (x : α)
    (hi : i < l.length) (hj : j < l.length) (hij : i ≠ j) :
    ((l.set i (l.get ⟨j, hj⟩)).set j x).Perm (l.set i x) := by
  induction l generalizing i j with
  | nil => simp at hi
  | cons a t ih =>
    cases i with
    | zero =>
      cases j with
      | zero => exact absurd rfl hij
      | succ m =>
        have hm : m < t.length := by simpa using hj
        simpa using cons_get_set_perm t m x hm
    | succ n =>
      cases j with
      | zero =>
        have hn : n < t.length := by simpa using hi
        have p1 := cons_get_set_perm t n a hn
        have p2 := cons_get_set_perm t n x hn
        have big : (t.get ⟨n, hn⟩ :: x :: t.set n a).Perm
            (t.get ⟨n, hn⟩ :: a :: t.set n x) := by
          have s1 : (t.get ⟨n, hn⟩ :: x :: t.set n a).Perm
              (x :: t.get ⟨n, hn⟩ :: t.set n a) := List.Perm.swap x (t.get ⟨n, hn⟩) _
          have s2 : (x :: t.get ⟨n, hn⟩ :: t.set n a).Perm (x :: a :: t) := p1.cons x
          have s3 : (x :: a :: t).Perm (a :: x :: t) := List.Perm.swap a x t
          have s4 : (a :: x :: t).Perm (a :: t.get ⟨n, hn⟩ :: t.set n x) := p2.symm.cons a
          have s5 : (a :: t.get ⟨n, hn⟩ :: t.set n x).Perm
              (t.get ⟨n, hn⟩ :: a :: t.set n x) := List.Perm.swap (t.get ⟨n, hn⟩) a _
          exact (((s1.trans s2).trans s3).trans s4).trans s5
        simpa using big.cons_inv
      | succ m =>
        have hn : n < t.length := by simpa using hi
        have hm : m < t.length := by simpa using hj
        simpa using (ih n m hn hm (by omega)).cons a

theorem siftdownLoop_length (lt : α → α → Bool) (s : Nat) :
    ∀ pos (heap : List α) (x : α), (siftdownLoop lt heap s pos x).length = heap.length := by
  intro pos
  induction pos using Nat.strong_induction_on with
  | _ pos ih =>
    intro heap x
    rw [siftdownLoop]
    split
    · cases hp : heap[(pos - 1) / 2]? with
      | none => simp
      | some parent =>
        dsimp only
        split
        · rw [ih ((pos - 1) / 2) (by omega)]
          simp
        · simp
    · simp

theorem siftdownLoop_perm (lt : α → α → Bool) (s : Nat) :
    ∀ pos (heap : List α) (x : α), pos < heap.length →
      (siftdownLoop lt heap s pos x).Perm (heap.set pos x) := by
  intro pos
  induction pos using Nat.strong_induction_on with
  | _ pos ih =>
    intro heap x hpos
    rw [siftdownLoop]
    split
    case isTrue hs =>
      have hpp : (pos - 1) / 2 < heap.length := by omega
      rw [List.getElem?_eq_getElem hpp]
      dsimp only
      split
      case isTrue hb =>
        have hrec := ih ((pos - 1) / 2) (by omega)
          (heap.set pos (heap.get ⟨(pos - 1) / 2, hpp⟩)) x
          (by simpa using hpp)
        have hstep := set_get_set_perm heap pos ((pos - 1) / 2) x hpos hpp (by omega)
        simp only [List.get_eq_getElem] at hrec hstep
        exact List.Perm.trans hrec hstep
      case isFalse => exact List.Perm.refl _
    case isFalse => exact List.Perm.refl _

/-! ### The heap invariant -/

/-- `pos` lies in the subtree rooted at `s` of the implicit binary tree on
array indices (parent of `i` is `(i-1)/2`). -/
def inSub (s : Nat) (pos : Nat) : Prop :=
  if pos ≤ s then pos = s else inSub s ((pos - 1) / 2)
termination_by pos
decreasing_by omega

theorem inSub_self (s : Nat) : inSub s s := by
  rw [inSub]
  simp

theorem inSub_le {s pos : Nat} (h : inSub s pos) : s ≤ pos := by
  rw [inSub] at h
  by_cases hle : pos ≤ s
  · rw [if_pos hle] at h
    omega
  · omega

theorem inSub_parent {s pos : Nat} (hlt : s < pos) (h : inSub s pos) :
    inSub s ((pos - 1) / 2) := by
  rw [inSub] at h
  rw [if_neg (by omega)] at h
  exact h

theorem inSub_child {s pos c : Nat} (h : inSub s pos)
    (hc : c = 2 * pos + 1 ∨ c = 2 * pos + 2) : inSub s c := by
  have hs := inSub_le h
  rw [inSub, if_neg (by omega)]
  have hpar : (c - 1) / 2 = pos := by omega
  rw [hpar]
  exact h

theorem inSub_zero (pos : Nat) : inSub 0 pos := by
  induction pos using Nat.strong_induction_on with
  | _ pos ih =>
    rw [inSub]
    by_cases h0 : pos ≤ 0
    · rw [if_pos h0]
      omega
    · rw [if_neg h0]
      exact ih ((pos - 1) / 2) (by omega)

/-- The binary-heap ordering property restricted to parents at index `≥ s`:
every parent-child pair of array slots below `s` is ordered by `key`. -/
def IsHeapFrom {K : Type} [LinearOrder K] (key : α → K) (s : Nat) (l : List α) : Prop :=
  ∀ p c, s ≤ p → (c = 2 * p + 1 ∨ c = 2 * p + 2) →
    ∀ (hc : c < l.length) (hp : p < l.length),
      key (l.get ⟨p, hp⟩) ≤ key (l.get ⟨c, hc⟩)

/-- The binary-heap ordering property maintained by CPython `heapq`. -/
def IsHeap {K : Type} [LinearOrder K] (key : α → K) (l : List α) : Prop :=
  IsHeapFrom key 0 l

theorem get_set_of_ne (l : List α) {i j : Nat} (v : α) (hij : i ≠ j)
    (hj : j < (l.set i v).length) :
    (l.set i v).get ⟨j, hj⟩ = l.get ⟨j, by simpa using hj⟩ := by
  simp [List.get_eq_getElem, List.getElem_set_ne hij]

theorem get_set_self_eq (l : List α) {i : Nat} (v : α) (hi : i < (l.set i v).length) :
    (l.set i v).get ⟨i, hi⟩ = v := by
  simp [List.get_eq_getElem]

theorem get_set_eq_self (l : List α) (v : α) {i j : Nat} (hij : i = j)
    (hj : j < (l.set i v).length) : (l.set i v).get ⟨j, hj⟩ = v := by
  subst hij
  exact get_set_self_eq l v hj

theorem siftdownLoop_isHeapFrom {K : Type} [LinearOrder K] (key : α → K)
    (lt : α → α → Bool) (hlt : ∀ a b, lt a b = true ↔ key a < key b) (s : Nat) :
    ∀ pos (heap : List α) (x : α), pos < heap.length → inSub s pos →
      (∀ p c, s ≤ p → (c = 2 * p + 1 ∨ c = 2 * p + 2) → p ≠ pos → c ≠ pos →
        ∀ (hc : c < heap.length) (hp : p < heap.length),
          key (heap.get ⟨p, hp⟩) ≤ key (heap.get ⟨c, hc⟩)) →
      (∀ c, (c = 2 * pos + 1 ∨ c = 2 * pos + 2) → ∀ (hc : c < heap.length),
          key x ≤ key (heap.get ⟨c, hc⟩)) →
      (s < pos → ∀ c, (c = 2 * pos + 1 ∨ c = 2 * pos + 2) →
        ∀ (hc : c < heap.length) (hpp : (pos - 1) / 2 < heap.length),
          key (heap.get ⟨(pos - 1) / 2, hpp⟩) ≤ key (heap.get ⟨c, hc⟩)) →
      IsHeapFrom key s (siftdownLoop lt heap s pos x) := by
  intro pos
  induction pos using Nat.strong_induction_on with
  | _ pos ih =>
    intro heap x hpos hsub hA hB1 hB2
    rw [siftdownLoop]
    split
    case isTrue hs =>
      have hpp : (pos - 1) / 2 < heap.length := by omega
      rw [List.getElem?_eq_getElem hpp]
      dsimp only
      have hgp : heap[(pos - 1) / 2] = heap.get ⟨(pos - 1) / 2, hpp⟩ := rfl
      split
      case isTrue hb =>
        rw [hlt] at hb
        rw [hgp] at hb
        -- the hole moves to the parent position
        have hppos : (pos - 1) / 2 ≠ pos := by omega
        have hppltpos : (pos - 1) / 2 < pos := by omega
        apply ih ((pos - 1) / 2) (by omega)
        -- bound
        · simpa using hpp
        -- still in the subtree
        · exact inSub_parent hs hsub
        -- pairs avoiding the new hole
        · intro p c hsp hchild hp1 hc1 hc hp
          have hcb : c < heap.length := by simpa using hc
          have hpb : p < heap.length := by simpa using hp
          by_cases hpe : p = pos
          · subst hpe
            have hce : c ≠ p := by omega
            rw [get_set_self_eq heap _ hp, get_set_of_ne heap _ (Ne.symm hce) hc]
            exact hB2 hs c hchild hcb hpp
          · by_cases hcc : c = pos
            · exfalso
              apply hp1
              omega
            · rw [get_set_of_ne heap _ (fun he => hpe he.symm) hp,
                get_set_of_ne heap _ (fun he => hcc he.symm) hc]
              exact hA p c hsp hchild hpe hcc hcb hpb
        -- children of the new hole dominate the sifted item
        · intro c hchild hc
          have hcb : c < heap.length := by simpa using hc
          by_cases hcc : c = pos
          · subst hcc
            rw [get_set_self_eq heap _ hc]
            exact le_of_lt hb
          · rw [get_set_of_ne heap _ (fun he => hcc he.symm) hc]
            have hstep : key (heap.get ⟨(pos - 1) / 2, hpp⟩) ≤ key (heap.get ⟨c, hcb⟩) := by
              apply hA ((pos - 1) / 2) c (inSub_le (inSub_parent hs hsub)) hchild
                (by omega) hcc hcb hpp
            exact le_trans (le_of_lt hb) hstep
        -- children of the new hole dominate the grandparent
        · intro hspp c hchild hc hgpp
          have hcb : c < heap.length := by simpa using hc
          have hgb : ((pos - 1) / 2 - 1) / 2 < heap.length := by
            simp only [List.length_set] at hgpp
            exact hgpp
          have hgne : ((pos - 1) / 2 - 1) / 2 ≠ pos := by omega
          have hppchild : (pos - 1) / 2 = 2 * (((pos - 1) / 2 - 1) / 2) + 1 ∨
              (pos - 1) / 2 = 2 * (((pos - 1) / 2 - 1) / 2) + 2 := by omega
          have hgs : s ≤ ((pos - 1) / 2 - 1) / 2 :=
            inSub_le (inSub_parent hspp (inSub_parent hs hsub))
          have hg_pp : key (heap.get ⟨((pos - 1) / 2 - 1) / 2, hgb⟩) ≤
              key (heap.get ⟨(pos - 1) / 2, hpp⟩) := by
            apply hA _ _ hgs hppchild (by omega) (by omega) hpp hgb
          rw [get_set_of_ne heap _ (Ne.symm hgne) hgpp]
          by_cases hcc : c = pos
          · subst hcc
            rw [get_set_self_eq heap _ hc]
            exact hg_pp
          · rw [get_set_of_ne heap _ (fun he => hcc he.symm) hc]
            have hpp_c : key (heap.get ⟨(pos - 1) / 2, hpp⟩) ≤ key (heap.get ⟨c, hcb⟩) := by
              apply hA _ _ (inSub_le (inSub_parent hs hsub)) hchild (by omega) hcc hcb hpp
            exact le_trans hg_pp hpp_c
      case isFalse hb =>
        rw [hgp] at hb
        have hble : key (heap.get ⟨(pos - 1) / 2, hpp⟩) ≤ key x := by
          have := (not_iff_not.mpr (hlt x (heap.get ⟨(pos - 1) / 2, hpp⟩))).mp
            (by simpa using hb)
          exact le_of_not_lt this
        intro p c hsp hchild hc hp
        have hcb : c < heap.length := by simpa using hc
        have hpb : p < heap.length := by simpa using hp
        by_cases hpe : p = pos
        · subst hpe
          have hce : c ≠ p := by omega
          rw [get_set_self_eq heap _ hp, get_set_of_ne heap _ (Ne.symm hce) hc]
          exact hB1 c hchild hcb
        · by_cases hcc : c = pos
          · have hpeq : p = (pos - 1) / 2 := by omega
            have hg1 : (heap.set pos x).get ⟨c, hc⟩ = x := by
              simp [List.get_eq_getElem, List.getElem_set, hcc]
            have hg2 : (heap.set pos x).get ⟨p, hp⟩ = heap.get ⟨p, hpb⟩ :=
              get_set_of_ne heap _ (fun he => hpe he.symm) hp
            have hg3 : heap.get ⟨p, hpb⟩ = heap.get ⟨(pos - 1) / 2, hpp⟩ := by
              congr 1
              exact Fin.ext hpeq
            rw [hg1, hg2, hg3]
            exact hble
          · rw [get_set_of_ne heap _ (fun he => hpe he.symm) hp,
              get_set_of_ne heap _ (fun he => hcc he.symm) hc]
            exact hA p c hsp hchild hpe hcc hcb hpb
    case isFalse hs =>
      have hse : pos = s := by
        have := inSub_le hsub
        omega
      intro p c hsp hchild hc hp
      have hcb : c < heap.length := by simpa using hc
      have hpb : p < heap.length := by simpa using hp
      by_cases hpe : p = pos
      · subst hpe
        have hce : c ≠ p := by omega
        rw [get_set_self_eq heap _ hp, get_set_of_ne heap _ (Ne.symm hce) hc]
        exact hB1 c hchild hcb
      · by_cases hcc : c = pos
        · exfalso
          omega
        · rw [get_set_of_ne heap _ (fun he => hpe he.symm) hp,
            get_set_of_ne heap _ (fun he => hcc he.symm) hc]
          exact hA p c hsp hchild hpe hcc hcb hpb

theorem minChild_min {K : Type} [LinearOrder K] (key : α → K) (lt : α → α → Bool)
    (hlt : ∀ a b, lt a b = true ↔ key a < key b) (heap : List α) (pos : Nat)
    (h : 2 * pos + 1 < heap.length) (c : Nat) (hchild : c = 2 * pos + 1 ∨ c = 2 * pos + 2)
    (vm vc : α) (hvm : heap[minChild lt heap pos]? = some vm) (hvc : heap[c]? = some vc) :
    key vm ≤ key vc := by
  have hgl : heap[2 * pos + 1]? = some (heap.get ⟨2 * pos + 1, h⟩) := by
    rw [List.getElem?_eq_getElem h]
    simp [List.get_eq_getElem]
  cases h2 : heap[2 * pos + 2]? with
  | none =>
    have hmc : minChild lt heap pos = 2 * pos + 1 := by
      unfold minChild
      rw [hgl, h2]
    rw [hmc] at hvm
    rcases hchild with hc1 | hc2
    · rw [hc1] at hvc
      rw [hvm] at hvc
      rw [Option.some_inj.mp hvc]
    · rw [hc2, h2] at hvc
      exact absurd hvc (by simp)
  | some r =>
    by_cases hb : lt (heap.get ⟨2 * pos + 1, h⟩) r = true
    · have hmc : minChild lt heap pos = 2 * pos + 1 := by
        unfold minChild
        rw [hgl, h2]
        dsimp only
        rw [if_pos hb]
      rw [hmc, hgl, Option.some_inj] at hvm
      rcases hchild with hc1 | hc2
      · rw [hc1, hgl, Option.some_inj] at hvc
        rw [← hvm, ← hvc]
      · rw [hc2, h2, Option.some_inj] at hvc
        rw [← hvm, ← hvc]
        exact le_of_lt ((hlt _ _).mp hb)
    · have hmc : minChild lt heap pos = 2 * pos + 2 := by
        unfold minChild
        rw [hgl, h2]
        dsimp only
        rw [if_neg hb]
      rw [hmc, h2, Option.some_inj] at hvm
      rcases hchild with hc1 | hc2
      · rw [hc1, hgl, Option.some_inj] at hvc
        rw [← hvm, ← hvc]
        have := (not_iff_not.mpr (hlt (heap.get ⟨2 * pos + 1, h⟩) r)).mp (by simpa using hb)
        exact le_of_not_lt this
      · rw [hc2, h2, Option.some_inj] at hvc
        rw [← hvm, ← hvc]

theorem siftupLoop_spec {K : Type} [LinearOrder K] (key : α → K) (lt : α → α → Bool)
    (hlt : ∀ a b, lt a b = true ↔ key a < key b) (s : Nat) :
    ∀ n pos (heap : List α), heap.length - pos ≤ n → pos < heap.length → inSub s pos →
      (∀ p c, s ≤ p → (c = 2 * p + 1 ∨ c = 2 * p + 2) → p ≠ pos → c ≠ pos →
        ∀ (hc : c < heap.length) (hp : p < heap.length),
          key (heap.get ⟨p, hp⟩) ≤ key (heap.get ⟨c, hc⟩)) →
      (s < pos → ∀ c, (c = 2 * pos + 1 ∨ c = 2 * pos + 2) →
        ∀ (hc : c < heap.length) (hpp : (pos - 1) / 2 < heap.length),
          key (heap.get ⟨(pos - 1) / 2, hpp⟩) ≤ key (heap.get ⟨c, hc⟩)) →
      ∃ l2 p2, siftupLoop lt heap pos = (l2, p2) ∧
        l2.length = heap.length ∧ p2 < heap.length ∧ inSub s p2 ∧
        heap.length ≤ 2 * p2 + 1 ∧
        (∀ p c, s ≤ p → (c = 2 * p + 1 ∨ c = 2 * p + 2) → p ≠ p2 → c ≠ p2 →
          ∀ (hc : c < l2.length) (hp : p < l2.length),
            key (l2.get ⟨p, hp⟩) ≤ key (l2.get ⟨c, hc⟩)) ∧
        (∀ x, (l2.set p2 x).Perm (heap.set pos x)) := by
  intro n
  induction n with
  | zero =>
    intro pos heap hfuel hpos
    omega
  | succ n ihn =>
    intro pos heap hfuel hpos hsub hA hB2
    rw [siftupLoop]
    split
    case isFalse hlc =>
      refine ⟨heap, pos, ?_, rfl, hpos, hsub, by omega, ?_, fun x => List.Perm.refl _⟩
      · simp
      · exact hA
    case isTrue hlc =>
      have hmc : minChild lt heap pos < heap.length := minChild_lt_length lt heap pos hlc
      rw [dif_pos hmc]
      have hposmc : pos < minChild lt heap pos := lt_minChild lt heap pos
      -- the written list for the recursive call
      have hlen2 : (heap.set pos (heap.get ⟨minChild lt heap pos, hmc⟩)).length =
          heap.length := by simp
      have hrec := ihn (minChild lt heap pos)
        (heap.set pos (heap.get ⟨minChild lt heap pos, hmc⟩))
        (by omega) (by omega) (inSub_child hsub (minChild_eq_or lt heap pos)) ?_ ?_
      · obtain ⟨l2, p2, heq, hl2, hp2, hsub2, hleaf, hA2, hperm2⟩ := hrec
        refine ⟨l2, p2, heq, by omega, by omega, hsub2, by omega, hA2, ?_⟩
        intro x
        have h1 := hperm2 x
        have h2 := set_get_set_perm heap pos (minChild lt heap pos) x hpos hmc (by omega)
        exact h1.trans h2
      -- the A-pairs for the moved hole
      · intro p c hsp hchild hp1 hc1 hc hp
        have hcb : c < heap.length := by simpa using hc
        have hpb : p < heap.length := by simpa using hp
        by_cases hpe : p = pos
        · -- children of the old hole other than the minimal child
          have hcpos : c ≠ pos := by omega
          have hge1 : (heap.set pos (heap.get ⟨minChild lt heap pos, hmc⟩)).get ⟨p, hp⟩ =
              heap.get ⟨minChild lt heap pos, hmc⟩ :=
            get_set_eq_self heap _ hpe.symm hp
          rw [hge1, get_set_of_ne heap _ (Ne.symm hcpos) hc]
          have hckey := minChild_min key lt hlt heap pos hlc c (by omega)
            (heap.get ⟨minChild lt heap pos, hmc⟩) (heap.get ⟨c, hcb⟩)
            (by rw [List.getElem?_eq_getElem hmc]; simp [List.get_eq_getElem])
            (by rw [List.getElem?_eq_getElem hcb]; simp [List.get_eq_getElem])
          exact hckey
        · by_cases hcc : c = pos
          · -- the parent of the old hole against the value moved into it
            have hspos : s < pos := by omega
            have hppb : (pos - 1) / 2 < heap.length := by omega
            have hpeq : p = (pos - 1) / 2 := by omega
            have hg1 : (heap.set pos (heap.get ⟨minChild lt heap pos, hmc⟩)).get ⟨c, hc⟩ =
                heap.get ⟨minChild lt heap pos, hmc⟩ :=
              get_set_eq_self heap _ hcc.symm hc
            rw [hg1, get_set_of_ne heap _ (fun he => hpe he.symm) hp]
            have hg3 : heap.get ⟨p, hpb⟩ = heap.get ⟨(pos - 1) / 2, hppb⟩ := by
              congr 1
              exact Fin.ext hpeq
            rw [hg3]
            exact hB2 hspos (minChild lt heap pos) (minChild_eq_or lt heap pos) hmc hppb
          · rw [get_set_of_ne heap _ (fun he => hpe he.symm) hp,
              get_set_of_ne heap _ (fun he => hcc he.symm) hc]
            exact hA p c hsp hchild hpe hcc hcb hpb
      -- children of the new hole dominate its parent, the old hole
      · intro hsmc c hchild hc hpp
        have hcb : c < heap.length := by simpa using hc
        have hppb : (minChild lt heap pos - 1) / 2 < heap.length := by simpa using hpp
        have hparmc : (minChild lt heap pos - 1) / 2 = pos := by
          rcases minChild_eq_or lt heap pos with he | he <;> omega
        have hcne : c ≠ pos := by
          rcases minChild_eq_or lt heap pos with he | he <;> omega
        have hg1 : (heap.set pos (heap.get ⟨minChild lt heap pos, hmc⟩)).get
            ⟨(minChild lt heap pos - 1) / 2, hpp⟩ =
            heap.get ⟨minChild lt heap pos, hmc⟩ :=
          get_set_eq_self heap _ hparmc.symm hpp
        rw [hg1, get_set_of_ne heap _ (Ne.symm hcne) hc]
        exact hA (minChild lt heap pos) c (inSub_le (inSub_child hsub
          (minChild_eq_or lt heap pos))) hchild (by omega) hcne hcb hmc

theorem siftup_spec {K : Type} [LinearOrder K] (key : α → K) (lt : α → α → Bool)
    (hlt : ∀ a b, lt a b = true ↔ key a < key b) (i : Nat) (heap : List α)
    (h : IsHeapFrom key (i + 1) heap) :
    IsHeapFrom key i (siftup lt heap i) ∧ (siftup lt heap i).Perm heap := by
  rw [siftup]
  cases hip : heap[i]? with
  | none =>
    dsimp only
    constructor
    · intro p c hsp hchild hc hp
      have hib : ¬ i < heap.length := by
        intro hlt2
        rw [List.getElem?_eq_getElem hlt2] at hip
        exact absurd hip (by simp)
      exfalso
      omega
    · exact List.Perm.refl _
  | some newitem =>
    have hib : i < heap.length := by
      by_contra hcon
      rw [List.getElem?_eq_none (by omega)] at hip
      exact absurd hip (by simp)
    have hA0 : ∀ p c, i ≤ p → (c = 2 * p + 1 ∨ c = 2 * p + 2) → p ≠ i → c ≠ i →
        ∀ (hc : c < heap.length) (hp : p < heap.length),
          key (heap.get ⟨p, hp⟩) ≤ key (heap.get ⟨c, hc⟩) := by
      intro p c hsp hchild hp1 hc1 hc hp
      exact h p c (by omega) hchild hc hp
    obtain ⟨l2, p2, heq, hl2, hp2, hsub2, hleaf, hA2, hperm2⟩ :=
      siftupLoop_spec key lt hlt i heap.length i heap (by omega) hib (inSub_self i)
        hA0 (by omega)
    dsimp only
    rw [heq]
    dsimp only
    constructor
    · apply siftdownLoop_isHeapFrom key lt hlt i p2 l2 newitem (by omega) hsub2 hA2
      · intro c hchild hc
        exfalso
        rw [hl2] at hc
        omega
      · intro hi2 c hchild hc hpp
        exfalso
        rw [hl2] at hc
        omega
    · have hnv : newitem = heap.get ⟨i, hib⟩ := by
        rw [List.getElem?_eq_getElem hib] at hip
        exact (Option.some_inj.mp hip).symm
      have hperm : (siftdownLoop lt l2 i p2 newitem).Perm (l2.set p2 newitem) :=
        siftdownLoop_perm lt i p2 l2 newitem (by omega)
      refine hperm.trans ((hperm2 newitem).trans ?_)
      rw [hnv, set_get_self]

theorem siftup_isHeapFrom {K : Type} [LinearOrder K] (key : α → K) (lt : α → α → Bool)
    (hlt : ∀ a b, lt a b = true ↔ key a < key b) (i : Nat) (heap : List α)
    (h : IsHeapFrom key (i + 1) heap) : IsHeapFrom key i (siftup lt heap i) :=
  (siftup_spec key lt hlt i heap h).1

theorem siftup_perm_of {K : Type} [LinearOrder K] (key : α → K) (lt : α → α → Bool)
    (hlt : ∀ a b, lt a b = true ↔ key a < key b) (i : Nat) (heap : List α)
    (h : IsHeapFrom key (i + 1) heap) : (siftup lt heap i).Perm heap :=
  (siftup_spec key lt hlt i heap h).2

theorem isHeapFrom_high {K : Type} [LinearOrder K] (key : α → K) (l : List α) (i : Nat)
    (h : l.length ≤ 2 * i + 1) : IsHeapFrom key i l := by
  intro p c hsp hchild hc hp
  exfalso
  omega

theorem isHeapFrom_of_le {K : Type} [LinearOrder K] (key : α → K) {l : List α} {i j : Nat}
    (hij : i ≤ j) (h : IsHeapFrom key i l) : IsHeapFrom key j l := by
  intro p c hsp hchild hc hp
  exact h p c (by omega) hchild hc hp

theorem heapifyLoop_spec {K : Type} [LinearOrder K] (key : α → K) (lt : α → α → Bool)
    (hlt : ∀ a b, lt a b = true ↔ key a < key b) :
    ∀ i (heap : List α), IsHeapFrom key i heap →
      IsHeap key (heapifyLoop lt i heap) ∧ (heapifyLoop lt i heap).Perm heap := by
  intro i
  induction i with
  | zero =>
    intro heap h
    exact ⟨h, List.Perm.refl _⟩
  | succ i ih =>
    intro heap h
    have h2 := siftup_spec key lt hlt i heap h
    have h3 := ih (siftup lt heap i) h2.1
    exact ⟨h3.1, h3.2.trans h2.2⟩

theorem heapify_isHeap {K : Type} [LinearOrder K] (key : α → K) (lt : α → α → Bool)
    (hlt : ∀ a b, lt a b = true ↔ key a < key b) (heap : List α) :
    IsHeap key (heapify lt heap) :=
  (heapifyLoop_spec key lt hlt (heap.length / 2) heap
    (isHeapFrom_high key heap _ (by omega))).1

theorem heapify_perm {K : Type} [LinearOrder K] (key : α → K) (lt : α → α → Bool)
    (hlt : ∀ a b, lt a b = true ↔ key a < key b) (heap : List α) :
    (heapify lt heap).Perm heap :=
  (heapifyLoop_spec key lt hlt (heap.length / 2) heap
    (isHeapFrom_high key heap _ (by omega))).2

theorem get_append_left (l l2 : List α) (i : Nat) (hi : i < l.length)
    (h : i < (l ++ l2).length) : (l ++ l2).get ⟨i, h⟩ = l.get ⟨i, hi⟩ := by
  simp [List.get_eq_getElem, List.getElem_append_left hi]

theorem heappush_isHeap {K : Type} [LinearOrder K] (key : α → K) (lt : α → α → Bool)
    (hlt : ∀ a b, lt a b = true ↔ key a < key b) (heap : List α) (x : α)
    (h : IsHeap key heap) : IsHeap key (heappush lt heap x) := by
  apply siftdownLoop_isHeapFrom key lt hlt 0 heap.length (heap ++ [x]) x
    (by simp) (inSub_zero _)
  · intro p c hsp hchild hp1 hc1 hc hp
    have hcb : c < heap.length := by
      simp only [List.length_append, List.length_cons, List.length_nil] at hc
      omega
    have hpb : p < heap.length := by omega
    rw [get_append_left heap [x] p hpb hp, get_append_left heap [x] c hcb hc]
    exact h p c (by omega) hchild hcb hpb
  · intro c hchild hc
    exfalso
    simp only [List.length_append, List.length_cons, List.length_nil] at hc
    omega
  · intro h0 c hchild hc hpp
    exfalso
    simp only [List.length_append, List.length_cons, List.length_nil] at hc
    omega

theorem heappush_perm (lt : α → α → Bool) (heap : List α) (x : α) :
    (heappush lt heap x).Perm (x :: heap) := by
  have h1 : (heappush lt heap x).Perm ((heap ++ [x]).set heap.length x) :=
    siftdownLoop_perm lt 0 heap.length (heap ++ [x]) x (by simp)
  have h2 : (heap ++ [x]).set heap.length x = heap ++ [x] := by
    apply List.ext_getElem (by simp)
    intro j hj1 hj2
    by_cases hje : heap.length = j
    · subst hje
      simp
    · simp [List.getElem_set_ne hje]
  rw [h2] at h1
  exact h1.trans (List.perm_append_singleton x heap)

theorem isHeap_root_le {K : Type} [LinearOrder K] (key : α → K) (l : List α)
    (hl : IsHeap key l) :
    ∀ i (hi : i < l.length) (h0 : 0 < l.length),
      key (l.get ⟨0, h0⟩) ≤ key (l.get ⟨i, hi⟩) := by
  intro i
  induction i using Nat.strong_induction_on with
  | _ i ih =>
    intro hi h0
    rcases Nat.eq_zero_or_pos i with hz | hpos
    · have heq : (⟨0, h0⟩ : Fin l.length) = ⟨i, hi⟩ := Fin.ext (by simpa using hz.symm)
      rw [heq]
    · have hpar := hl ((i - 1) / 2) i (Nat.zero_le _) (by omega) hi (by omega)
      exact le_trans (ih ((i - 1) / 2) (by omega) (by omega) h0) hpar

theorem isHeap_root_min {K : Type} [LinearOrder K] (key : α → K) (l : List α)
    (hl : IsHeap key l) (h0 : 0 < l.length) :
    ∀ y ∈ l, key (l.get ⟨0, h0⟩) ≤ key y := by
  intro y hy
  rcases List.mem_iff_get.mp hy with ⟨⟨i, hi⟩, hg⟩
  rw [← hg]
  exact isHeap_root_le key l hl i hi h0

theorem heappop_spec {K : Type} [LinearOrder K] (key : α → K) (lt : α → α → Bool)
    (hlt : ∀ a b, lt a b = true ↔ key a < key b) (heap : List α)
    (hne : heap ≠ []) (h : IsHeap key heap) :
    ∃ m h2, heappop lt heap = some (m, h2) ∧ (m :: h2).Perm heap ∧ IsHeap key h2 ∧
      ∀ y ∈ heap, key m ≤ key y := by
  rw [heappop]
  rw [List.getLast?_eq_getLast heap hne]
  dsimp only
  cases hr : heap.dropLast[0]? with
  | none =>
    dsimp only
    have hr0 : heap.dropLast = [] := by
      cases hd : heap.dropLast with
      | nil => rfl
      | cons a t =>
        rw [hd] at hr
        exact absurd hr (by simp)
    have hlen1 : heap.length = 1 := by
      have := List.length_dropLast heap
      rw [hr0] at this
      simp at this
      have hl0 : heap.length ≠ 0 := by
        intro hc
        exact hne (List.length_eq_zero.mp hc)
      omega
    rw [hr0]
    refine ⟨heap.getLast hne, [], rfl, ?_, ?_, ?_⟩
    · have : heap = [heap.getLast hne] := by
        have hg := List.dropLast_append_getLast hne
        rw [hr0] at hg
        simpa using hg.symm
      rw [← this]
    · intro p c hsp hchild hc hp
      simp at hc
    · intro y hy
      have : heap = [heap.getLast hne] := by
        have hg := List.dropLast_append_getLast hne
        rw [hr0] at hg
        simpa using hg.symm
      rw [this] at hy
      simp at hy
      rw [hy]
  | some returnitem =>
    dsimp only
    have hr0 : 0 < heap.dropLast.length := by
      by_contra hcon
      rw [List.getElem?_eq_none (by omega)] at hr
      exact absurd hr (by simp)
    have hdl : heap.dropLast.length = heap.length - 1 := by
      simp [List.length_dropLast]
    have hlen2 : 2 ≤ heap.length := by omega
    have hsetlen : 0 < (heap.dropLast.set 0 (heap.getLast hne)).length := by
      simpa using hr0
    -- the root of the original heap is returned
    have hret : returnitem = heap.get ⟨0, by omega⟩ := by
      rw [List.getElem?_eq_getElem hr0] at hr
      have := Option.some_inj.mp hr
      rw [← this]
      simp [List.get_eq_getElem, List.getElem_dropLast]
    -- the invariant after repair
    have hfrom1 : IsHeapFrom key 1 (heap.dropLast.set 0 (heap.getLast hne)) := by
      intro p c hsp hchild hc hp
      have hcb2 : c < heap.dropLast.length := by simpa using hc
      have hpb2 : p < heap.dropLast.length := by simpa using hp
      rw [get_set_of_ne _ _ (by omega : (0 : Nat) ≠ p) hp,
        get_set_of_ne _ _ (by omega : (0 : Nat) ≠ c) hc]
      have hgc : heap.dropLast.get ⟨c, hcb2⟩ = heap.get ⟨c, by omega⟩ := by
        simp [List.get_eq_getElem, List.getElem_dropLast]
      have hgp : heap.dropLast.get ⟨p, hpb2⟩ = heap.get ⟨p, by omega⟩ := by
        simp [List.get_eq_getElem, List.getElem_dropLast]
      rw [hgc, hgp]
      exact h p c (by omega) hchild (by omega) (by omega)
    have hrepair := siftup_spec key lt hlt 0 (heap.dropLast.set 0 (heap.getLast hne)) hfrom1
    refine ⟨returnitem, _, rfl, ?_, hrepair.1, ?_⟩
    · -- multiset accounting
      have hp1 : (siftup lt (heap.dropLast.set 0 (heap.getLast hne)) 0).Perm
          (heap.dropLast.set 0 (heap.getLast hne)) := hrepair.2
      have hp2 : (heap.dropLast.get ⟨0, hr0⟩ :: heap.dropLast.set 0 (heap.getLast hne)).Perm
          (heap.getLast hne :: heap.dropLast) := cons_get_set_perm heap.dropLast 0 _ hr0
      have hp3 : (heap.getLast hne :: heap.dropLast).Perm heap := by
        have hg := List.dropLast_append_getLast hne
        have hps := List.perm_append_singleton (heap.getLast hne) heap.dropLast
        rw [hg] at hps
        exact hps.symm
      have hret2 : returnitem = heap.dropLast.get ⟨0, hr0⟩ := by
        rw [List.getElem?_eq_getElem hr0] at hr
        exact (Option.some_inj.mp hr).symm
      rw [hret2]
      exact ((hp1.cons _).trans hp2).trans hp3
    · intro y hy
      rw [hret]
      exact isHeap_root_min key heap h (by omega) y hy

theorem heappop_none (lt : α → α → Bool) : heappop lt ([] : List α) = none := rfl

theorem drainAux_spec {K : Type} [LinearOrder K] (key : α → K) (lt : α → α → Bool)
    (hlt : ∀ a b, lt a b = true ↔ key a < key b) :
    ∀ n (heap : List α), heap.length ≤ n → IsHeap key heap →
      (drainAux lt n heap).Perm heap ∧
        (drainAux lt n heap).Sorted (fun a b => key a ≤ key b) := by
  intro n
  induction n with
  | zero =>
    intro heap hlen hh
    have : heap = [] := List.length_eq_zero.mp (by omega)
    rw [this]
    exact ⟨List.Perm.refl _, List.sorted_nil⟩
  | succ n ih =>
    intro heap hlen hh
    by_cases hne : heap = []
    · rw [hne]
      exact ⟨by rw [drainAux, heappop_none], by rw [drainAux, heappop_none]; exact
        List.sorted_nil⟩
    · obtain ⟨m, h2, heq, hperm, hheap2, hmin⟩ := heappop_spec key lt hlt heap hne hh
      have hlen2 : h2.length ≤ n := by
        have := hperm.length_eq
        simp at this
        omega
      obtain ⟨ihp, ihs⟩ := ih h2 hlen2 hheap2
      rw [drainAux, heq]
      constructor
      · exact (ihp.cons m).trans hperm
      · rw [List.sorted_cons]
        refine ⟨?_, ihs⟩
        intro b hb
        have hb2 : b ∈ h2 := ihp.mem_iff.mp hb
        have hbheap : b ∈ heap := hperm.mem_iff.mp (List.mem_cons_of_mem m hb2)
        exact hmin b hbheap

theorem drain_spec {K : Type} [LinearOrder K] (key : α → K) (lt : α → α → Bool)
    (hlt : ∀ a b, lt a b = true ↔ key a < key b) (heap : List α) (hh : IsHeap key heap) :
    (drain lt heap).Perm heap ∧ (drain lt heap).Sorted (fun a b => key a ≤ key b) :=
  drainAux_spec key lt hlt heap.length heap (le_refl _) hh

end PyHeap

example : PyHeap.heappush (fun a b : Nat => decide (a < b)) [1, 3, 2] 0 = [0, 1, 2, 3] := by
  simp [PyHeap.heappush, PyHeap.siftdownLoop]

example : PyHeap.heappop (fun a b : Nat => decide (a < b)) [0, 1, 2, 3] =
    some (0, [1, 3, 2]) := by
  simp [PyHeap.heappop, PyHeap.siftup, PyHeap.siftupLoop, PyHeap.siftdownLoop, PyHeap.minChild]

example : PyHeap.drain (fun a b : Nat => decide (a < b)) [1, 2] = [1, 2] := by
  simp [PyHeap.drain, PyHeap.drainAux, PyHeap.heappop, PyHeap.siftup, PyHeap.siftupLoop,
    PyHeap.siftdownLoop, PyHeap.minChild]

/-! ### The data model: customers and events (`customer.py`, `event.py`) -/

/-- `customer.CustomerPriority`, an `IntEnum` with VIP=1, ELDERLY=2,
APPOINTMENT=3, REGULAR=4; lower values are served first. -/
inductive CustomerPriority
  | VIP
  | ELDERLY
  | APPOINTMENT
  | REGULAR
deriving DecidableEq

/-- The integer value of the `IntEnum` member. -/
def CustomerPriority.value : CustomerPriority → Nat
  | .VIP => 1
  | .ELDERLY => 2
  | .APPOINTMENT => 3
  | .REGULAR => 4

/-- `customer.Customer`, a mutable dataclass. -/
structure Customer where
  customer_id : Nat
  arrival_time : ℚ
  priority : CustomerPriority
  service_time_required : ℚ
  patience : ℚ
  service_start_time : Option ℚ
  service_end_time : Option ℚ
  abandoned : Bool
deriving DecidableEq

/-- `Customer.__lt__`: by priority level when they differ (IntEnum members
compare by integer value), otherwise by arrival time. -/
def Customer.lt (a b : Customer) : Bool :=
  if a.priority ≠ b.priority then decide (a.priority.value < b.priority.value)
  else decide (a.arrival_time < b.arrival_time)

/-- The sort key realised by `Customer.__lt__`. -/
def customerKey (c : Customer) : Nat ×ₗ ℚ := toLex (c.priority.value, c.arrival_time)

theorem customerPriority_value_inj {a b : CustomerPriority}
    (h : a.value = b.value) : a = b := by
  cases a <;> cases b <;> simp_all [CustomerPriority.value]

theorem customerLt_iff (a b : Customer) :
    Customer.lt a b = true ↔ customerKey a < customerKey b := by
  unfold Customer.lt customerKey
  rw [Prod.Lex.lt_iff]
  by_cases hp : a.priority = b.priority
  · rw [if_neg (by simpa using hp)]
    simp [hp]
  · rw [if_pos (by simpa using hp)]
    have hv : a.priority.value ≠ b.priority.value := fun hvv => hp (customerPriority_value_inj hvv)
    simp [hv]

/-- `Customer.should_abandon(current_time)`: `False` once service started,
otherwise the elapsed wait strictly exceeds the patience. -/
def Customer.should_abandon (c : Customer) (current_time : ℚ) : Bool :=
  match c.service_start_time with
  | some _ => false
  | none => decide (current_time - c.arrival_time > c.patience)

/-- `event.EventType`. -/
inductive EventType
  | CUSTOMER_ARRIVAL
  | SERVICE_START
  | SERVICE_COMPLETE
  | CUSTOMER_ABANDON
  | BANK_OPEN
  | BANK_CLOSE
deriving DecidableEq

/-- `event.Event`: `@dataclass(order=True)` comparing the fields `time` and
`sequence` (the `event_type` and `data` fields have `compare=False`).  The
`data` payload carries at most a teller id in the simulator. -/
structure Event where
  time : ℚ
  sequence : Nat
  event_type : EventType
  data : Option Nat
deriving DecidableEq

/-- The ordering generated by `@dataclass(order=True)`: lexicographic
comparison of the `(time, sequence)` tuples. -/
def Event.lt (a b : Event) : Bool :=
  decide (a.time < b.time) || (decide (a.time = b.time) && decide (a.sequence < b.sequence))

/-- The sort key realised by the generated `Event.__lt__`. -/
def eventKey (e : Event) : ℚ ×ₗ Nat := toLex (e.time, e.sequence)

theorem eventLt_iff (a b : Event) : Event.lt a b = true ↔ eventKey a < eventKey b := by
  unfold Event.lt eventKey
  rw [Prod.Lex.lt_iff]
  simp

/-! ### `event.EventQueue` -/

/-- `event.EventQueue`: a `heapq` heap of events plus the sequence counter. -/
structure EventQueue where
  heap : List Event
  sequence : Nat

/-- `EventQueue.__init__`. -/
def EventQueue.empty : EventQueue := ⟨[], 0⟩

/-- `EventQueue.schedule(time, event_type, data)`: build the event with the
current sequence counter, increment the counter, `heappush`, and return the
event. -/
def EventQueue.schedule (q : EventQueue) (time : ℚ) (event_type : EventType)
    (data : Option Nat) : Event × EventQueue :=
  (⟨time, q.sequence, event_type, data⟩,
    ⟨PyHeap.heappush Event.lt q.heap ⟨time, q.sequence, event_type, data⟩, q.sequence + 1⟩)

/-- `EventQueue.pop()`: `heappop` if the heap is non-empty, else `None`. -/
def EventQueue.pop (q : EventQueue) : Option Event × EventQueue :=
  match PyHeap.heappop Event.lt q.heap with
  | some (e, h) => (some e, ⟨h, q.sequence⟩)
  | none => (none, q)

/-- Run a list of `schedule` requests in order. -/
def scheduleList (q : EventQueue) : List (ℚ × EventType × Option Nat) → EventQueue
  | [] => q
  | r :: rs => scheduleList (q.schedule r.1 r.2.1 r.2.2).2 rs

/-- The events built by `scheduleList` when the counter starts at `s`. -/
def eventsFrom (s : Nat) : List (ℚ × EventType × Option Nat) → List Event
  | [] => []
  | r :: rs => ⟨r.1, s, r.2.1, r.2.2⟩ :: eventsFrom (s + 1) rs

/-- All events of the queue in pop order. -/
def EventQueue.drainAll (q : EventQueue) : List Event :=
  PyHeap.drain Event.lt q.heap

theorem scheduleList_spec :
    ∀ (reqs : List (ℚ × EventType × Option Nat)) (q : EventQueue),
      PyHeap.IsHeap eventKey q.heap →
      PyHeap.IsHeap eventKey (scheduleList q reqs).heap ∧
      (scheduleList q reqs).heap.Perm (eventsFrom q.sequence reqs ++ q.heap) ∧
      (scheduleList q reqs).sequence = q.sequence + reqs.length := by
  intro reqs
  induction reqs with
  | nil =>
    intro q hq
    exact ⟨hq, by simp [scheduleList, eventsFrom], by simp [scheduleList]⟩
  | cons r rs ih =>
    intro q hq
    rw [scheduleList]
    dsimp only [EventQueue.schedule]
    have hpush := PyHeap.heappush_isHeap eventKey Event.lt eventLt_iff q.heap
      ⟨r.1, q.sequence, r.2.1, r.2.2⟩ hq
    obtain ⟨h1, h2, h3⟩ := ih ⟨PyHeap.heappush Event.lt q.heap
      ⟨r.1, q.sequence, r.2.1, r.2.2⟩, q.sequence + 1⟩ hpush
    refine ⟨h1, ?_, ?_⟩
    · have hps : (PyHeap.heappush Event.lt q.heap
          ⟨r.1, q.sequence, r.2.1, r.2.2⟩).Perm
          (⟨r.1, q.sequence, r.2.1, r.2.2⟩ :: q.heap) :=
        PyHeap.heappush_perm Event.lt q.heap _
      have hstep := (h2.trans ((hps.append_left (eventsFrom (q.sequence + 1) rs)).trans
        (List.perm_middle)))
      exact hstep
    · rw [h3]
      simp
      omega

theorem eventsFrom_seq_ge :
    ∀ (rs : List (ℚ × EventType × Option Nat)) (s : Nat) (e : Event),
      e ∈ eventsFrom s rs → s ≤ e.sequence := by
  intro rs
  induction rs with
  | nil =>
    intro s e he
    simp [eventsFrom] at he
  | cons r rs ih =>
    intro s e he
    rw [eventsFrom] at he
    rcases List.mem_cons.mp he with he1 | he2
    · rw [he1]
    · have := ih (s + 1) e he2
      omega

theorem eventsFrom_seq_pairwise :
    ∀ (rs : List (ℚ × EventType × Option Nat)) (s : Nat),
      List.Pairwise (fun a b : Event => a.sequence < b.sequence) (eventsFrom s rs) := by
  intro rs
  induction rs with
  | nil =>
    intro s
    rw [eventsFrom]
    exact List.Pairwise.nil
  | cons r rs ih =>
    intro s
    rw [eventsFrom]
    refine List.pairwise_cons.mpr ⟨?_, ih (s + 1)⟩
    intro e he
    have := eventsFrom_seq_ge rs (s + 1) e he
    simp
    omega

theorem emptyQueue_isHeap : PyHeap.IsHeap eventKey (EventQueue.empty).heap := by
  intro p c hsp hchild hc hp
  simp [EventQueue.empty] at hc

theorem eventKey_inj {a b : Event} (h : eventKey a = eventKey b) :
    a.time = b.time ∧ a.sequence = b.sequence := by
  unfold eventKey at h
  have h2 : (a.time, a.sequence) = (b.time, b.sequence) := toLex.injective h
  exact ⟨congrArg Prod.fst h2, congrArg Prod.snd h2⟩

/-- C1: starting from a fresh event queue, after any sequence of `schedule`
calls the successive `pop()` calls return exactly the scheduled events
(sequence numbers assigned in order of scheduling, in strictly increasing
order), in non-decreasing time and, among events with equal time, in strictly
increasing sequence number — so of two simultaneous events the one scheduled
first is popped first. -/
theorem claim1_event_queue_pop_order (reqs : List (ℚ × EventType × Option Nat)) :
    ((scheduleList EventQueue.empty reqs).drainAll).Perm (eventsFrom 0 reqs) ∧
    List.Chain' (fun a b => a.time < b.time ∨ (a.time = b.time ∧ a.sequence < b.sequence))
      ((scheduleList EventQueue.empty reqs).drainAll) := by
  obtain ⟨hh, hperm, hseq⟩ := scheduleList_spec reqs EventQueue.empty emptyQueue_isHeap
  have hdrain := PyHeap.drain_spec eventKey Event.lt eventLt_iff _ hh
  have hperm0 : ((scheduleList EventQueue.empty reqs).drainAll).Perm (eventsFrom 0 reqs) := by
    refine hdrain.1.trans ?_
    simpa [EventQueue.empty] using hperm
  refine ⟨hperm0, ?_⟩
  have hsymm : ∀ {x y : Event}, eventKey x ≠ eventKey y → eventKey y ≠ eventKey x :=
    fun hab h => hab h.symm
  have hpw : List.Pairwise (fun a b : Event => eventKey a ≠ eventKey b)
      (eventsFrom 0 reqs) := by
    refine (eventsFrom_seq_pairwise reqs 0).imp ?_
    intro a b hab hk
    have := (eventKey_inj hk).2
    omega
  have hpwd : List.Pairwise (fun a b : Event => eventKey a ≠ eventKey b)
      ((scheduleList EventQueue.empty reqs).drainAll) :=
    (hperm0.pairwise_iff hsymm).mpr hpw
  have hand := List.Pairwise.and hdrain.2 hpwd
  have hpwR : List.Pairwise (fun a b : Event =>
      a.time < b.time ∨ (a.time = b.time ∧ a.sequence < b.sequence))
      ((scheduleList EventQueue.empty reqs).drainAll) := by
    refine hand.imp ?_
    intro a b hab
    have hlt : eventKey a < eventKey b := lt_of_le_of_ne hab.1 hab.2
    simpa [eventKey, Prod.Lex.lt_iff] using hlt
  exact hpwR.chain'

/-- C4 counterexample: `EventQueue.schedule` never rejects.  After popping an
event at time 5, scheduling an event at the earlier time 3 succeeds — the new
event is built, inserted into the heap, and returned; no InvalidTime error
path exists in `EventQueue.schedule`. -/
theorem claim4_counterexample :
    ((EventQueue.empty.schedule 5 .BANK_CLOSE none).2.pop).1 =
      some ⟨5, 0, .BANK_CLOSE, none⟩ ∧
    ((((EventQueue.empty.schedule 5 .BANK_CLOSE none).2.pop).2.schedule 3
        .CUSTOMER_ARRIVAL none).2.heap = [⟨3, 1, .CUSTOMER_ARRIVAL, none⟩]) := by
  constructor
  · simp [EventQueue.empty, EventQueue.schedule, EventQueue.pop, PyHeap.heappush,
      PyHeap.heappop, PyHeap.siftdownLoop, PyHeap.siftup, PyHeap.siftupLoop, PyHeap.minChild]
  · simp [EventQueue.empty, EventQueue.schedule, EventQueue.pop, PyHeap.heappush,
      PyHeap.heappop, PyHeap.siftdownLoop, PyHeap.siftup, PyHeap.siftupLoop, PyHeap.minChild]

/-- C4 amended: `EventQueue.schedule(time, event_type, data)` performs no
validation at all.  For every queue state — in particular whatever event was
popped last — it unconditionally builds the event with the current sequence
counter, pushes it onto the heap (the heap contents grow by exactly that
event), increments the counter, and returns the event; there is no InvalidTime
rejection of times earlier than the last popped event. -/
theorem claim4_schedule_always_inserts (q : EventQueue) (t : ℚ) (k : EventType)
    (d : Option Nat) :
    (q.schedule t k d).1 = ⟨t, q.sequence, k, d⟩ ∧
    (q.schedule t k d).2.sequence = q.sequence + 1 ∧
    ((q.schedule t k d).2.heap).Perm (⟨t, q.sequence, k, d⟩ :: q.heap) := by
  refine ⟨rfl, rfl, ?_⟩
  exact PyHeap.heappush_perm Event.lt q.heap _

/-! ### `bank_queue.BankQueue` -/

/-- `bank_queue.BankQueue`: a `heapq` heap of customers, an optional capacity,
and the two lifetime counters. -/
structure BankQueue where
  heap : List Customer
  max_size : Option Nat
  total_customers_entered : Nat
  total_customers_abandoned : Nat
deriving DecidableEq

/-- `BankQueue.__init__(max_size)`. -/
def BankQueue.empty (max_size : Option Nat) : BankQueue := ⟨[], max_size, 0, 0⟩

/-- `BankQueue.add_customer(customer)`: `False` when a capacity is configured
and already reached, otherwise `heappush` the customer and count the entry. -/
def BankQueue.add_customer (q : BankQueue) (c : Customer) : Bool × BankQueue :=
  match q.max_size with
  | some m =>
    if m ≤ q.heap.length then (false, q)
    else
      (true, ⟨PyHeap.heappush Customer.lt q.heap c, q.max_size,
        q.total_customers_entered + 1, q.total_customers_abandoned⟩)
  | none =>
    (true, ⟨PyHeap.heappush Customer.lt q.heap c, q.max_size,
      q.total_customers_entered + 1, q.total_customers_abandoned⟩)

/-- `BankQueue.get_next_customer()`: `heappop` when non-empty, else `None`. -/
def BankQueue.get_next_customer (q : BankQueue) : Option Customer × BankQueue :=
  match PyHeap.heappop Customer.lt q.heap with
  | some (c, h) => (some c, ⟨h, q.max_size, q.total_customers_entered,
      q.total_customers_abandoned⟩)
  | none => (none, q)

/-- `BankQueue.remove_customer(customer)`: Python `list.remove` deletes the
first structurally equal entry and raises `ValueError` when absent, which the
method turns into `False` with the list untouched; on success the heap is
re-`heapify`-ed. -/
def BankQueue.remove_customer (q : BankQueue) (c : Customer) : Bool × BankQueue :=
  if c ∈ q.heap then
    (true, ⟨PyHeap.heapify Customer.lt (q.heap.erase c), q.max_size,
      q.total_customers_entered, q.total_customers_abandoned⟩)
  else (false, q)

/-- `BankQueue.process_abandonments(current_time)`: walk the heap in list
order; customers whose `should_abandon` holds are marked `abandoned = True`,
collected, and counted; the others are kept; the kept list is
re-`heapify`-ed. -/
def BankQueue.process_abandonments (q : BankQueue) (current_time : ℚ) :
    List Customer × BankQueue :=
  ((q.heap.filter (fun c => c.should_abandon current_time)).map
      (fun c => { c with abandoned := true }),
    ⟨PyHeap.heapify Customer.lt (q.heap.filter (fun c => ! c.should_abandon current_time)),
      q.max_size, q.total_customers_entered,
      q.total_customers_abandoned +
        (q.heap.filter (fun c => c.should_abandon current_time)).length⟩)

/-- `BankQueue.get_abandonment_rate()`. -/
def BankQueue.get_abandonment_rate (q : BankQueue) : ℚ :=
  if q.total_customers_entered = 0 then 0
  else (q.total_customers_abandoned : ℚ) / (q.total_customers_entered : ℚ)

/-- The `BankQueue` states reachable through the public mutating API from a
fresh queue. -/
inductive BankQueue.Reachable : BankQueue → Prop
  | init (max_size : Option Nat) : BankQueue.Reachable (BankQueue.empty max_size)
  | add {q : BankQueue} (c : Customer) : BankQueue.Reachable q →
      BankQueue.Reachable (q.add_customer c).2
  | next {q : BankQueue} : BankQueue.Reachable q →
      BankQueue.Reachable q.get_next_customer.2
  | remove {q : BankQueue} (c : Customer) : BankQueue.Reachable q →
      BankQueue.Reachable (q.remove_customer c).2
  | abandon {q : BankQueue} (t : ℚ) : BankQueue.Reachable q →
      BankQueue.Reachable (q.process_abandonments t).2

theorem bankQueue_add_defs (q : BankQueue) (c : Customer) :
    q.add_customer c = (match q.max_size with
      | some m =>
        if m ≤ q.heap.length then (false, q)
        else
          (true, ⟨PyHeap.heappush Customer.lt q.heap c, q.max_size,
            q.total_customers_entered + 1, q.total_customers_abandoned⟩)
      | none =>
        (true, ⟨PyHeap.heappush Customer.lt q.heap c, q.max_size,
          q.total_customers_entered + 1, q.total_customers_abandoned⟩)) := rfl

theorem reachable_invariant {q : BankQueue} (h : BankQueue.Reachable q) :
    PyHeap.IsHeap customerKey q.heap ∧
    q.total_customers_abandoned + q.heap.length ≤ q.total_customers_entered := by
  induction h with
  | init m =>
    constructor
    · intro p c hsp hchild hc hp
      simp [BankQueue.empty] at hc
    · simp [BankQueue.empty]
  | add c hq ih =>
    rename_i q2
    rcases ih with ⟨ih1, ih2⟩
    have hlen := (PyHeap.heappush_perm Customer.lt q2.heap c).length_eq
    simp only [List.length_cons] at hlen
    have hok : PyHeap.IsHeap customerKey
        (PyHeap.heappush Customer.lt q2.heap c) ∧
        q2.total_customers_abandoned + (PyHeap.heappush Customer.lt q2.heap c).length ≤
          q2.total_customers_entered + 1 :=
      ⟨PyHeap.heappush_isHeap customerKey Customer.lt customerLt_iff q2.heap c ih1,
        by omega⟩
    rw [BankQueue.add_customer]
    cases hms : q2.max_size with
    | none => exact hok
    | some m =>
      dsimp only
      by_cases hfull : m ≤ q2.heap.length
      · rw [if_pos hfull]
        exact ⟨ih1, ih2⟩
      · rw [if_neg hfull]
        exact hok
  | next hq ih =>
    rename_i q2
    rcases ih with ⟨ih1, ih2⟩
    rw [BankQueue.get_next_customer]
    cases hpop : PyHeap.heappop Customer.lt q2.heap with
    | none => exact ⟨ih1, ih2⟩
    | some pr =>
      have hne : q2.heap ≠ ([] : List Customer) := by
        intro hnil
        rw [hnil, PyHeap.heappop_none] at hpop
        exact absurd hpop (by simp)
      obtain ⟨m2, h2, heq, hperm, hheap2, hmin⟩ :=
        PyHeap.heappop_spec customerKey Customer.lt customerLt_iff q2.heap hne ih1
      rw [heq] at hpop
      have hpr : pr = (m2, h2) := (Option.some_inj.mp hpop).symm
      rw [hpr]
      dsimp only
      refine ⟨hheap2, ?_⟩
      have := hperm.length_eq
      simp only [List.length_cons] at this
      omega
  | remove c hq ih =>
    rename_i q2
    rcases ih with ⟨ih1, ih2⟩
    rw [BankQueue.remove_customer]
    by_cases hmem : c ∈ q2.heap
    · rw [if_pos hmem]
      dsimp only
      refine ⟨PyHeap.heapify_isHeap customerKey Customer.lt customerLt_iff _, ?_⟩
      have h1 := (PyHeap.heapify_perm customerKey Customer.lt customerLt_iff
        (q2.heap.erase c)).length_eq
      have h2 := List.length_erase_of_mem hmem
      have h3 : 1 ≤ q2.heap.length := List.length_pos.mpr (List.ne_nil_of_mem hmem)
      omega
    · rw [if_neg hmem]
      exact ⟨ih1, ih2⟩
  | abandon t hq ih =>
    rename_i q2
    rcases ih with ⟨ih1, ih2⟩
    rw [BankQueue.process_abandonments]
    dsimp only
    refine ⟨PyHeap.heapify_isHeap customerKey Customer.lt customerLt_iff _, ?_⟩
    have h1 := (PyHeap.heapify_perm customerKey Customer.lt customerLt_iff
      (q2.heap.filter (fun c => ! c.should_abandon t))).length_eq
    have h2 : q2.heap.length = (q2.heap.filter (fun c => c.should_abandon t)).length +
        (q2.heap.filter (fun c => ! c.should_abandon t)).length := by
      simpa using @List.length_eq_length_filter_add Customer q2.heap
        (fun c => c.should_abandon t)
    omega

theorem customerKey_le_iff (a b : Customer) :
    customerKey a ≤ customerKey b ↔
      (a.priority.value < b.priority.value ∨
        (a.priority.value = b.priority.value ∧ a.arrival_time ≤ b.arrival_time)) := by
  unfold customerKey
  rw [Prod.Lex.le_iff]

theorem sorted_customerKey_imp (l : List Customer)
    (h : l.Sorted (fun a b => customerKey a ≤ customerKey b)) :
    l.Sorted (fun a b => a.priority.value < b.priority.value ∨
      (a.priority.value = b.priority.value ∧ a.arrival_time ≤ b.arrival_time)) :=
  List.Pairwise.imp (fun hab => (customerKey_le_iff _ _).mp hab) h

/-- C10: in every `BankQueue` state reachable by any sequence of
`add_customer`, `get_next_customer`, `remove_customer` and
`process_abandonments` calls from a fresh queue, the abandoned counter never
exceeds the entered counter, so `get_abandonment_rate` always lies in
`[0, 1]`, and it is 0 when nobody has entered. -/
theorem claim10_abandonment_rate_bounds {q : BankQueue} (h : BankQueue.Reachable q) :
    q.total_customers_abandoned ≤ q.total_customers_entered ∧
    0 ≤ q.get_abandonment_rate ∧ q.get_abandonment_rate ≤ 1 ∧
    (q.total_customers_entered = 0 → q.get_abandonment_rate = 0) := by
  obtain ⟨-, hcnt⟩ := reachable_invariant h
  have hle : q.total_customers_abandoned ≤ q.total_customers_entered := by omega
  rw [BankQueue.get_abandonment_rate]
  by_cases h0 : q.total_customers_entered = 0
  · rw [if_pos h0]
    exact ⟨hle, le_refl 0, by norm_num, fun _ => rfl⟩
  · rw [if_neg h0]
    have hpos : (0 : ℚ) < (q.total_customers_entered : ℚ) := by
      exact_mod_cast Nat.pos_of_ne_zero h0
    refine ⟨hle, ?_, ?_, fun hc => absurd hc h0⟩
    · positivity
    · rw [div_le_one hpos]
      exact_mod_cast hle

/-- Witness for C10: the bounds at the fresh unbounded queue. -/
theorem claim10_witness :
    (BankQueue.empty none).total_customers_abandoned ≤
      (BankQueue.empty none).total_customers_entered ∧
    0 ≤ (BankQueue.empty none).get_abandonment_rate ∧
    (BankQueue.empty none).get_abandonment_rate ≤ 1 ∧
    ((BankQueue.empty none).total_customers_entered = 0 →
      (BankQueue.empty none).get_abandonment_rate = 0) :=
  claim10_abandonment_rate_bounds (BankQueue.Reachable.init none)

/-- An ELDERLY customer arriving at time 0 (concrete demo input). -/
def demoElderly : Customer := ⟨1, 0, .ELDERLY, 5, 100, none, none, false⟩

/-- A REGULAR customer arriving at time 1 (concrete demo input). -/
def demoRegular : Customer := ⟨2, 1, .REGULAR, 5, 100, none, none, false⟩

/-- `demoRegular` after an in-place priority upgrade to VIP, as a priority
mutation of the object while it sits inside the heap would produce. -/
def demoUpgraded : Customer := ⟨2, 1, .VIP, 5, 100, none, none, false⟩

/-- C2 counterexample: after adding `demoElderly` then `demoRegular` the heap
list is `[demoElderly, demoRegular]`.  Mutating the priority of the second
stored customer in place to VIP yields the line `[demoElderly, demoUpgraded]`,
whose unique (priority_class, arrival_time)-minimal member is `demoUpgraded`;
yet `get_next_customer` still removes and returns `demoElderly` — the heap is
never re-sorted after an in-place mutation, so the claim fails. -/
theorem claim2_counterexample :
    ((((BankQueue.empty none).add_customer demoElderly).2.add_customer demoRegular).2.heap =
      [demoElderly, demoRegular]) ∧
    ((⟨[demoElderly, demoRegular].set 1 demoUpgraded, none, 2, 0⟩ :
        BankQueue).get_next_customer.1 = some demoElderly) ∧
    demoUpgraded ∈ ([demoElderly, demoRegular].set 1 demoUpgraded) ∧
    Customer.lt demoUpgraded demoElderly = true := by
  refine ⟨?_, ?_, ?_, ?_⟩
  · simp [BankQueue.empty, BankQueue.add_customer, demoElderly, demoRegular,
      PyHeap.heappush, PyHeap.siftdownLoop, Customer.lt, CustomerPriority.value]
  · simp [BankQueue.get_next_customer, PyHeap.heappop, PyHeap.siftup, PyHeap.siftupLoop,
      PyHeap.siftdownLoop, PyHeap.minChild, demoElderly, demoRegular, demoUpgraded]
  · simp
  · decide

/-- C2 amended: provided no member is mutated while it sits in the line, the
claim holds in every reachable queue state: draining by repeated
`get_next_customer` returns the members of the line sorted by
(priority_class value ascending, arrival_time ascending), and a single
`get_next_customer` removes and returns a member that is
(priority_class, arrival_time)-minimal among the current members of the line,
leaving exactly the other members. -/
theorem claim2_pop_priority_order {q : BankQueue} (h : BankQueue.Reachable q) :
    (PyHeap.drain Customer.lt q.heap).Perm q.heap ∧
    (PyHeap.drain Customer.lt q.heap).Sorted (fun a b =>
      a.priority.value < b.priority.value ∨
        (a.priority.value = b.priority.value ∧ a.arrival_time ≤ b.arrival_time)) ∧
    (∀ c q2, q.get_next_customer = (some c, q2) →
      q2.heap.Perm (q.heap.erase c) ∧
      ∀ y ∈ q.heap, c.priority.value < y.priority.value ∨
        (c.priority.value = y.priority.value ∧ c.arrival_time ≤ y.arrival_time)) := by
  obtain ⟨hheap, -⟩ := reachable_invariant h
  obtain ⟨hdp, hds⟩ := PyHeap.drain_spec customerKey Customer.lt customerLt_iff q.heap hheap
  refine ⟨hdp, sorted_customerKey_imp _ hds, ?_⟩
  intro c q2 hpopeq
  rw [BankQueue.get_next_customer] at hpopeq
  cases hpop : PyHeap.heappop Customer.lt q.heap with
  | none =>
    rw [hpop] at hpopeq
    exact absurd (congrArg Prod.fst hpopeq) (by simp)
  | some pr =>
    rw [hpop] at hpopeq
    have hne : q.heap ≠ ([] : List Customer) := by
      intro hnil
      rw [hnil, PyHeap.heappop_none] at hpop
      exact absurd hpop (by simp)
    obtain ⟨m2, h2, heq, hperm, hheap2, hmin⟩ :=
      PyHeap.heappop_spec customerKey Customer.lt customerLt_iff q.heap hne hheap
    rw [hpop] at heq
    have hpr : pr = (m2, h2) := Option.some_inj.mp heq
    rw [hpr] at hpopeq
    dsimp only at hpopeq
    have hc : m2 = c := by
      have := congrArg Prod.fst hpopeq
      simpa using this
    have hq2 : q2.heap = h2 := by
      have h5 := congrArg Prod.snd hpopeq
      dsimp only at h5
      rw [← h5]
    rw [← hc]
    constructor
    · rw [hq2]
      have hcons : (m2 :: h2).Perm q.heap := hperm
      exact (List.cons_perm_iff_perm_erase.mp hcons).2
    · intro y hy
      exact (customerKey_le_iff m2 y).mp (hmin y hy)

/-- Witness for C2 at the queue reached by adding `demoElderly` then
`demoRegular` to a fresh unbounded queue. -/
theorem claim2_witness :
    (PyHeap.drain Customer.lt (((BankQueue.empty none).add_customer
        demoElderly).2.add_customer demoRegular).2.heap).Perm
      (((BankQueue.empty none).add_customer demoElderly).2.add_customer
        demoRegular).2.heap ∧
    (PyHeap.drain Customer.lt (((BankQueue.empty none).add_customer
        demoElderly).2.add_customer demoRegular).2.heap).Sorted (fun a b =>
      a.priority.value < b.priority.value ∨
        (a.priority.value = b.priority.value ∧ a.arrival_time ≤ b.arrival_time)) ∧
    (∀ c q2, (((BankQueue.empty none).add_customer demoElderly).2.add_customer
        demoRegular).2.get_next_customer = (some c, q2) →
      q2.heap.Perm ((((BankQueue.empty none).add_customer demoElderly).2.add_customer
        demoRegular).2.heap.erase c) ∧
      ∀ y ∈ (((BankQueue.empty none).add_customer demoElderly).2.add_customer
          demoRegular).2.heap,
        c.priority.value < y.priority.value ∨
          (c.priority.value = y.priority.value ∧ c.arrival_time ≤ y.arrival_time)) :=
  claim2_pop_priority_order
    (BankQueue.Reachable.add demoRegular
      (BankQueue.Reachable.add demoElderly (BankQueue.Reachable.init none)))

/-- C3: `process_abandonments(current_time)` removes from the line, marks
`abandoned = True`, and returns exactly those members not yet in service whose
elapsed wait `current_time - arrival_time` strictly exceeds their patience
(in heap-list order); every other member stays in the line with all fields —
including the `abandoned` flag — unchanged; the abandonment counter grows by
the number returned, the entry counter and capacity are untouched; and when no
deadline of a member is exceeded the result is `[]` and the line is unchanged. -/
theorem claim3_process_abandonments (q : BankQueue) (t : ℚ) :
    (∀ c : Customer, c.should_abandon t = true ↔
      (c.service_start_time = none ∧ t - c.arrival_time > c.patience)) ∧
    (q.process_abandonments t).1 =
      (q.heap.filter (fun c => c.should_abandon t)).map
        (fun c => { c with abandoned := true }) ∧
    (∀ c ∈ (q.process_abandonments t).1, c.abandoned = true) ∧
    (q.process_abandonments t).2.heap.Perm
      (q.heap.filter (fun c => ! c.should_abandon t)) ∧
    (q.process_abandonments t).2.total_customers_entered = q.total_customers_entered ∧
    (q.process_abandonments t).2.max_size = q.max_size ∧
    (q.process_abandonments t).2.total_customers_abandoned =
      q.total_customers_abandoned + (q.process_abandonments t).1.length ∧
    ((∀ c ∈ q.heap, c.should_abandon t = false) →
      (q.process_abandonments t).1 = [] ∧
      (q.process_abandonments t).2.heap.Perm q.heap ∧
      (q.process_abandonments t).2.total_customers_abandoned =
        q.total_customers_abandoned) := by
  refine ⟨?_, rfl, ?_, ?_, rfl, rfl, by simp [BankQueue.process_abandonments], ?_⟩
  · intro c
    rw [Customer.should_abandon]
    cases hs : c.service_start_time with
    | some v => simp [hs]
    | none => simp
  · intro c hc
    rw [BankQueue.process_abandonments] at hc
    dsimp only at hc
    rcases List.mem_map.mp hc with ⟨x, -, hx⟩
    rw [← hx]
  · exact PyHeap.heapify_perm customerKey Customer.lt customerLt_iff _
  · intro hnone
    have hfilter : q.heap.filter (fun c => c.should_abandon t) = [] := by
      rw [List.filter_eq_nil_iff]
      intro a ha
      simp [hnone a ha]
    have hfilter2 : q.heap.filter (fun c => ! c.should_abandon t) = q.heap := by
      rw [List.filter_eq_self]
      intro a ha
      simp [hnone a ha]
    refine ⟨?_, ?_, ?_⟩
    · rw [BankQueue.process_abandonments]
      dsimp only
      rw [hfilter]
      rfl
    · rw [BankQueue.process_abandonments]
      dsimp only
      rw [hfilter2]
      exact PyHeap.heapify_perm customerKey Customer.lt customerLt_iff q.heap
    · rw [BankQueue.process_abandonments]
      dsimp only
      rw [hfilter]
      rfl

/-- Witness for C3: a line holding only the patient `demoElderly` scanned at
time 1 reports no abandonment and the line keeps its single member. -/
theorem claim3_witness :
    ((⟨[demoElderly], none, 1, 0⟩ : BankQueue).process_abandonments 1).1 = [] ∧
    ((⟨[demoElderly], none, 1, 0⟩ : BankQueue).process_abandonments 1).2.heap.Perm
      [demoElderly] ∧
    ((⟨[demoElderly], none, 1, 0⟩ : BankQueue).process_abandonments
      1).2.total_customers_abandoned = 0 :=
  (claim3_process_abandonments ⟨[demoElderly], none, 1, 0⟩ 1).2.2.2.2.2.2.2
    (by intro c hc
        simp only [List.mem_singleton] at hc
        subst hc
        simp [demoElderly, Customer.should_abandon])

/-- C9: `remove_customer(customer)` returns `True` exactly when a structurally
equal entry is in the line; on a miss the whole queue state is returned
unchanged; on a hit exactly one matching entry is removed (the remaining heap
is a permutation of `erase`), the counters and capacity are untouched, and the
remaining members are still popped in (priority_class, arrival_time) order
afterwards. -/
theorem claim9_remove_customer (q : BankQueue) (c : Customer) :
    ((q.remove_customer c).1 = true ↔ c ∈ q.heap) ∧
    (c ∉ q.heap → (q.remove_customer c).2 = q) ∧
    (c ∈ q.heap →
      (q.remove_customer c).2.heap.Perm (q.heap.erase c) ∧
      (PyHeap.drain Customer.lt (q.remove_customer c).2.heap).Perm (q.heap.erase c) ∧
      (PyHeap.drain Customer.lt (q.remove_customer c).2.heap).Sorted (fun a b =>
        a.priority.value < b.priority.value ∨
          (a.priority.value = b.priority.value ∧ a.arrival_time ≤ b.arrival_time)) ∧
      (q.remove_customer c).2.total_customers_entered = q.total_customers_entered ∧
      (q.remove_customer c).2.total_customers_abandoned = q.total_customers_abandoned ∧
      (q.remove_customer c).2.max_size = q.max_size) := by
  rw [BankQueue.remove_customer]
  by_cases hmem : c ∈ q.heap
  · rw [if_pos hmem]
    refine ⟨by simpa using hmem, fun hn => absurd hmem hn, fun _ => ?_⟩
    have hperm := PyHeap.heapify_perm customerKey Customer.lt customerLt_iff
      (q.heap.erase c)
    have hheap := PyHeap.heapify_isHeap customerKey Customer.lt customerLt_iff
      (q.heap.erase c)
    obtain ⟨hdp, hds⟩ := PyHeap.drain_spec customerKey Customer.lt customerLt_iff _ hheap
    exact ⟨hperm, hdp.trans hperm, sorted_customerKey_imp _ hds, rfl, rfl, rfl⟩
  · rw [if_neg hmem]
    exact ⟨by simpa using hmem, fun _ => rfl, fun hmem2 => absurd hmem2 hmem⟩

/-- Witness for C9: removing `demoRegular` from the line
`[demoElderly, demoRegular]` succeeds and leaves only `demoElderly`, which is
still drained in order. -/
theorem claim9_witness :
    ((⟨[demoElderly, demoRegular], none, 2, 0⟩ : BankQueue).remove_customer
      demoRegular).2.heap.Perm ([demoElderly, demoRegular].erase demoRegular) ∧
    (PyHeap.drain Customer.lt ((⟨[demoElderly, demoRegular], none, 2, 0⟩ :
      BankQueue).remove_customer demoRegular).2.heap).Perm
        ([demoElderly, demoRegular].erase demoRegular) ∧
    (PyHeap.drain Customer.lt ((⟨[demoElderly, demoRegular], none, 2, 0⟩ :
      BankQueue).remove_customer demoRegular).2.heap).Sorted (fun a b =>
        a.priority.value < b.priority.value ∨
          (a.priority.value = b.priority.value ∧ a.arrival_time ≤ b.arrival_time)) ∧
    ((⟨[demoElderly, demoRegular], none, 2, 0⟩ : BankQueue).remove_customer
      demoRegular).2.total_customers_entered = 2 ∧
    ((⟨[demoElderly, demoRegular], none, 2, 0⟩ : BankQueue).remove_customer
      demoRegular).2.total_customers_abandoned = 0 ∧
    ((⟨[demoElderly, demoRegular], none, 2, 0⟩ : BankQueue).remove_customer
      demoRegular).2.max_size = none :=
  (claim9_remove_customer ⟨[demoElderly, demoRegular], none, 2, 0⟩ demoRegular).2.2
    (by simp)

/-! ### `teller.Teller` -/

/-- Failure modes of the embedded teller operations: `invalidState` models
the `ValueError` contract violations raised in `teller.py`; `typeError`
models the `TypeError` Python would raise when the busy-time subtraction
meets a `None` start timestamp. -/
inductive SimError
  | invalidState
  | typeError
deriving DecidableEq

/-- `teller.Teller`. -/
structure Teller where
  teller_id : Nat
  efficiency : ℚ
  current_customer : Option Customer
  customers_served : List Customer
  total_busy_time : ℚ
  idle_since : Option ℚ
deriving DecidableEq

/-- `Teller.is_available()`: no current customer. -/
def Teller.is_available (t : Teller) : Bool := t.current_customer.isNone

/-- `Teller.calculate_service_time(customer)`: the nominal requirement divided
by the efficiency factor (the data model guarantees `efficiency > 0`). -/
def Teller.calculate_service_time (t : Teller) (c : Customer) : ℚ :=
  c.service_time_required / t.efficiency

/-- `Teller.start_service(customer, current_time)`: `ValueError` when the
teller is busy; otherwise the customer is stamped with
`service_start_time = current_time` and stored as the current customer,
`idle_since` is cleared, and the completion time is returned.  Python mutates
the teller and customer objects in place; the embedding returns the two
updated records together with the completion time. -/
def Teller.start_service (t : Teller) (c : Customer) (current_time : ℚ) :
    Except SimError (Teller × Customer × ℚ) :=
  if ! t.is_available then .error .invalidState
  else
    .ok ({ t with
        current_customer := some { c with service_start_time := some current_time },
        idle_since := none },
      { c with service_start_time := some current_time },
      current_time + t.calculate_service_time c)

/-- `Teller.complete_service(current_time)`: `ValueError` when idle; a current
customer without a start stamp would make `current_time - None` raise
`TypeError`; otherwise the customer is stamped with
`service_end_time = current_time`, the busy time grows by the service span,
the customer joins `customers_served`, the teller is freed and
`idle_since = current_time`. -/
def Teller.complete_service (t : Teller) (current_time : ℚ) :
    Except SimError (Teller × Customer) :=
  match t.current_customer with
  | none => .error .invalidState
  | some c =>
    match c.service_start_time with
    | none => .error .typeError
    | some s =>
      .ok ({ t with
          total_busy_time := t.total_busy_time + (current_time - s),
          customers_served := t.customers_served ++ [{ c with service_end_time := some current_time }],
          current_customer := none,
          idle_since := some current_time },
        { c with service_end_time := some current_time })

/-- C5: for a server with positive efficiency, `start_service` fails with an
InvalidState error exactly when the server already has a current customer;
otherwise it stores the customer — stamped with
`service_start_time = current_time` — as the current customer, clears
`idle_since` to `None`, and returns
`completion_time = current_time + service_time_required / efficiency`.  Its
result consists only of the updated teller, the updated customer and the
completion time: no event is scheduled by this operation. -/
theorem claim5_start_service (t : Teller) (c : Customer) (time : ℚ)
    (heff : 0 < t.efficiency) :
    (t.start_service c time = .error .invalidState ↔ t.current_customer ≠ none) ∧
    (t.current_customer = none →
      t.start_service c time = .ok
        ({ t with
             current_customer := some { c with service_start_time := some time },
             idle_since := none },
          { c with service_start_time := some time },
          time + c.service_time_required / t.efficiency)) := by
  rw [Teller.start_service, Teller.is_available]
  cases hc : t.current_customer with
  | none =>
    refine ⟨?_, fun _ => rfl⟩
    simp
  | some c0 =>
    refine ⟨?_, fun hn => absurd hn (by simp)⟩
    simp

/-- Witness for C5: an idle teller with efficiency 2 starts serving
`demoRegular` (5 units required) at time 10 and will finish at 12.5. -/
theorem claim5_witness :
    ((⟨7, 2, none, [], 0, some 4⟩ : Teller).start_service demoRegular 10 =
        .error .invalidState ↔
      (⟨7, 2, none, [], 0, some 4⟩ : Teller).current_customer ≠ none) ∧
    ((⟨7, 2, none, [], 0, some 4⟩ : Teller).current_customer = none →
      (⟨7, 2, none, [], 0, some 4⟩ : Teller).start_service demoRegular 10 = .ok
        (⟨7, 2, some { demoRegular with service_start_time := some 10 }, [], 0, none⟩,
          { demoRegular with service_start_time := some 10 },
          10 + demoRegular.service_time_required / 2)) :=
  claim5_start_service ⟨7, 2, none, [], 0, some 4⟩ demoRegular 10 (by norm_num)

/-- C6: for a server whose current customer (when present) carries a start
stamp — the invariant `start_service` establishes — `complete_service` fails
with an InvalidState error exactly when the server has no current customer
(the error is raised before any mutation, so the state seen by the caller is
unchanged); otherwise it stamps the customer with
`service_end_time = current_time`, adds
`current_time - service_start_time` to the accumulated busy time, appends the
customer to `customers_served`, clears the current customer (making the
server available again), sets `idle_since = current_time`, and returns the
served customer. -/
theorem claim6_complete_service (t : Teller) (time : ℚ)
    (hwf : ∀ c, t.current_customer = some c → c.service_start_time ≠ none) :
    (t.complete_service time = .error .invalidState ↔ t.current_customer = none) ∧
    (∀ c s, t.current_customer = some c → c.service_start_time = some s →
      t.complete_service time = .ok
        ({ t with
             total_busy_time := t.total_busy_time + (time - s),
             customers_served :=
               t.customers_served ++ [{ c with service_end_time := some time }],
             current_customer := none,
             idle_since := some time },
          { c with service_end_time := some time })) := by
  rw [Teller.complete_service]
  cases hc : t.current_customer with
  | none =>
    refine ⟨by simp, ?_⟩
    intro c s hsome
    exact absurd hsome (by simp)
  | some c0 =>
    cases hs : c0.service_start_time with
    | none => exact absurd hs (by simpa using hwf c0 hc)
    | some s0 =>
      constructor
      · simp [hs]
      · intro c s hsome hstart
        have hcc : c0 = c := Option.some_inj.mp hsome
        subst hcc
        have hss : s0 = s := by
          rw [hs] at hstart
          exact Option.some_inj.mp hstart
        subst hss
        dsimp only
        rw [hstart]

/-- Witness for C6: a teller that started serving `demoRegular` at time 10
completes at time 12.5, accumulating 2.5 units of busy time. -/
theorem claim6_witness :
    ((⟨7, 2, some { demoRegular with service_start_time := some 10 }, [], 0, none⟩ :
        Teller).complete_service (25 / 2) = .error .invalidState ↔
      (⟨7, 2, some { demoRegular with service_start_time := some 10 }, [], 0, none⟩ :
        Teller).current_customer = none) ∧
    (⟨7, 2, some { demoRegular with service_start_time := some 10 }, [], 0, none⟩ :
        Teller).complete_service (25 / 2) = .ok
      (⟨7, 2, none,
          [{ demoRegular with
               service_start_time := some 10,
               service_end_time := some (25 / 2) }], 0 + (25 / 2 - 10), some (25 / 2)⟩,
        { demoRegular with
            service_start_time := some 10,
            service_end_time := some (25 / 2) }) := by
  have h := claim6_complete_service
    ⟨7, 2, some { demoRegular with service_start_time := some 10 }, [], 0, none⟩ (25 / 2)
    (by intro c hsome
        rw [Option.some_inj.mp hsome.symm]
        simp)
  exact ⟨h.1, h.2 { demoRegular with service_start_time := some 10 } 10 rfl rfl⟩

namespace PyHeap

theorem siftupLoop_length (lt : α → α → Bool) :
    ∀ n pos (heap : List α), heap.length - pos ≤ n →
      (siftupLoop lt heap pos).1.length = heap.length := by
  intro n
  induction n with
  | zero =>
    intro pos heap hfuel
    rw [siftupLoop, dif_neg (by omega)]
  | succ n ih =>
    intro pos heap hfuel
    rw [siftupLoop]
    split
    case isTrue h =>
      rw [dif_pos (minChild_lt_length lt heap pos h)]
      have hmc := lt_minChild lt heap pos
      rw [ih (minChild lt heap pos) _ (by simp only [List.length_set]; omega)]
      simp
    case isFalse h => rfl

theorem siftup_length (lt : α → α → Bool) (heap : List α) (pos : Nat) :
    (siftup lt heap pos).length = heap.length := by
  rw [siftup]
  cases hip : heap[pos]? with
  | none => rfl
  | some newitem =>
    dsimp only
    rw [siftdownLoop_length]
    exact siftupLoop_length lt heap.length pos heap (by omega)

theorem heappop_length (lt : α → α → Bool) (heap : List α) (m : α) (h2 : List α)
    (h : heappop lt heap = some (m, h2)) : h2.length + 1 = heap.length := by
  rw [heappop] at h
  cases hg : heap.getLast? with
  | none =>
    rw [hg] at h
    exact absurd h (by simp)
  | some lastelt =>
    rw [hg] at h
    dsimp only at h
    have hne : heap ≠ [] := by
      intro hnil
      rw [hnil] at hg
      exact absurd hg (by simp)
    have hlpos : heap.length ≠ 0 := fun hz => hne (List.length_eq_zero.mp hz)
    cases hr : heap.dropLast[0]? with
    | some ri =>
      rw [hr] at h
      have hpair := Option.some_inj.mp h
      have hh2 : h2 = siftup lt (heap.dropLast.set 0 lastelt) 0 :=
        (congrArg Prod.snd hpair).symm
      rw [hh2, siftup_length]
      simp only [List.length_set, List.length_dropLast]
      omega
    | none =>
      rw [hr] at h
      have hpair := Option.some_inj.mp h
      have hh2 : h2 = heap.dropLast := (congrArg Prod.snd hpair).symm
      have hd0 : heap.dropLast.length = 0 := by
        by_contra hcon
        rw [List.getElem?_eq_getElem (by omega)] at hr
        exact absurd hr (by simp)
      rw [hh2]
      simp only [List.length_dropLast] at hd0 ⊢
      omega

end PyHeap

/-! ### `bank.Bank` and the assignment loop of `Simulator._try_start_service` -/

/-- `bank.Bank`. -/
structure Bank where
  tellers : List Teller
  queue : BankQueue
  is_open : Bool
  total_customers_arrived : Nat
  customers_turned_away : Nat

/-- The key used by the Python `min` call in `Bank.get_available_teller`:
`idle_since` when set, positive infinity otherwise — so a `some` is strictly
below `none`, two `some`s compare by value, and two `none`s are equal. -/
def idleKeyLt (a b : Option ℚ) : Bool :=
  match a, b with
  | some x, some y => decide (x < y)
  | some _, none => true
  | none, _ => false

/-- The index into `tellers` of the teller `Bank.get_available_teller()`
returns: Python builds the available sublist and takes `min` by the idle key,
which scans left to right and keeps the earliest minimum.  Returning the index
rather than the teller value captures Python object identity (the caller
mutates exactly this list slot). -/
def chooseTeller (tellers : List Teller) : Option Nat :=
  match (List.range tellers.length).filter
      (fun i => match tellers[i]? with | some t => t.is_available | none => false) with
  | [] => none
  | i0 :: rest => some (rest.foldl (fun best j =>
      match tellers[j]?, tellers[best]? with
      | some tj, some tb => if idleKeyLt tj.idle_since tb.idle_since then j else best
      | _, _ => best) i0)

/-- `Bank.try_assign_customer_to_teller(current_time)`: pick the longest-idle
available teller (`None` when all are busy), pop the highest-priority waiting
customer (`None` leaves the bank untouched), start service on that teller and
hand back the updated bank with the assignment data (teller index, updated
teller, served customer, service end time). -/
def Bank.try_assign_customer_to_teller (b : Bank) (current_time : ℚ) :
    Option (Bank × Nat × Teller × Customer × ℚ) :=
  match chooseTeller b.tellers with
  | none => none
  | some i =>
    match b.queue.get_next_customer with
    | (none, _) => none
    | (some c, q2) =>
      match b.tellers[i]? with
      | none => none
      | some t =>
        match t.start_service c current_time with
        | .error _ => none
        | .ok (t2, c2, endTime) =>
          some (⟨b.tellers.set i t2, q2, b.is_open, b.total_customers_arrived,
            b.customers_turned_away⟩, i, t2, c2, endTime)

/-- The state the `Simulator._try_start_service` loop mutates: the bank and
the event queue (the queue-length statistics it also records do not feed back
into the loop condition). -/
structure LoopState where
  bank : Bank
  event_queue : EventQueue

/-- One iteration of the loop body of `Simulator._try_start_service`: a bank
assignment followed by scheduling the SERVICE_COMPLETE event carrying the
teller id. -/
def tryStartServiceStep (st : LoopState) (current_time : ℚ) : Option LoopState :=
  match st.bank.try_assign_customer_to_teller current_time with
  | none => none
  | some (b2, _i, t2, _c, endTime) =>
    some ⟨b2, (st.event_queue.schedule endTime .SERVICE_COMPLETE (some t2.teller_id)).2⟩

/-- The `while True` loop of `Simulator._try_start_service`, with an explicit
fuel bound; `none` means the fuel was exhausted before the loop exited. -/
def tryStartServiceLoop (current_time : ℚ) : Nat → LoopState → Option LoopState
  | 0, _ => none
  | fuel + 1, st =>
    match tryStartServiceStep st current_time with
    | none => some st
    | some st2 => tryStartServiceLoop current_time fuel st2

/-- The number of available tellers. -/
def freeTellerCount (tellers : List Teller) : Nat :=
  (tellers.filter (fun t => t.is_available)).length

theorem foldl_choice_mem (tellers : List Teller) :
    ∀ (l : List Nat) (b : Nat) (S : List Nat), b ∈ S → (∀ j ∈ l, j ∈ S) →
      (l.foldl (fun best j =>
        match tellers[j]?, tellers[best]? with
        | some tj, some tb => if idleKeyLt tj.idle_since tb.idle_since then j else best
        | _, _ => best) b) ∈ S := by
  intro l
  induction l with
  | nil =>
    intro b S hb _
    exact hb
  | cons j l ih =>
    intro b S hb hl
    rw [List.foldl_cons]
    apply ih
    · cases tellers[j]? with
      | none => exact hb
      | some tj =>
        cases tellers[b]? with
        | none => exact hb
        | some tb =>
          dsimp only
          split
          · exact hl j (List.mem_cons_self j l)
          · exact hb
    · intro x hx
      exact hl x (List.mem_cons_of_mem _ hx)

theorem chooseTeller_spec (tellers : List Teller) (i : Nat)
    (h : chooseTeller tellers = some i) :
    ∃ t, tellers[i]? = some t ∧ t.is_available = true := by
  rw [chooseTeller] at h
  cases hf : (List.range tellers.length).filter
      (fun i => match tellers[i]? with | some t => t.is_available | none => false) with
  | nil =>
    rw [hf] at h
    exact absurd h (by simp)
  | cons i0 rest =>
    rw [hf] at h
    dsimp only at h
    have hi0 : i0 ∈ (List.range tellers.length).filter
        (fun i => match tellers[i]? with | some t => t.is_available | none => false) := by
      rw [hf]
      exact List.mem_cons_self i0 rest
    have hrest : ∀ j ∈ rest, j ∈ (List.range tellers.length).filter
        (fun i => match tellers[i]? with | some t => t.is_available | none => false) := by
      intro j hj
      rw [hf]
      exact List.mem_cons_of_mem _ hj
    have hmem := foldl_choice_mem tellers rest i0 _ hi0 hrest
    rw [Option.some_inj.mp h] at hmem
    have hpred := (List.mem_filter.mp hmem).2
    cases ht : tellers[i]? with
    | none =>
      rw [ht] at hpred
      exact absurd hpred (by simp)
    | some t =>
      rw [ht] at hpred
      exact ⟨t, rfl, hpred⟩

theorem freeTellerCount_set (tellers : List Teller) :
    ∀ (i : Nat) (t2 t : Teller), tellers[i]? = some t →
      t.is_available = true → t2.is_available = false →
      freeTellerCount (tellers.set i t2) + 1 = freeTellerCount tellers := by
  induction tellers with
  | nil =>
    intro i t2 t h
    simp at h
  | cons a rest ih =>
    intro i t2 t h hav hbusy
    cases i with
    | zero =>
      have ha : a = t := by simpa using h
      rw [List.set_cons_zero]
      rw [freeTellerCount, freeTellerCount, List.filter_cons, List.filter_cons,
        hbusy, ha, hav]
      simp
    | succ n =>
      have hn : rest[n]? = some t := by simpa using h
      rw [List.set_cons_succ]
      rw [freeTellerCount, freeTellerCount, List.filter_cons, List.filter_cons]
      have hrec := ih n t2 t hn hav hbusy
      rw [freeTellerCount, freeTellerCount] at hrec
      cases hava : a.is_available <;> simp [hava] <;> omega

theorem start_service_makes_busy (t : Teller) (c : Customer) (time : ℚ) (t2 : Teller)
    (c2 : Customer) (e : ℚ) (h : t.start_service c time = .ok (t2, c2, e)) :
    t2.is_available = false := by
  rw [Teller.start_service] at h
  cases hav : t.is_available with
  | false =>
    rw [hav] at h
    exact absurd h (by simp)
  | true =>
    rw [hav] at h
    simp only [Bool.not_true, Bool.false_eq_true, if_false] at h
    have := Option.some_inj.mp (congrArg Except.toOption h)
    have ht2 : t2 = { t with
        current_customer := some { c with service_start_time := some time },
        idle_since := none } := (congrArg (fun p => p.1) this).symm
    rw [ht2, Teller.is_available]
    rfl

theorem get_next_customer_shrinks (q : BankQueue) (c : Customer) (q2 : BankQueue)
    (h : q.get_next_customer = (some c, q2)) :
    q2.heap.length + 1 = q.heap.length := by
  rw [BankQueue.get_next_customer] at h
  cases hpop : PyHeap.heappop Customer.lt q.heap with
  | none =>
    rw [hpop] at h
    exact absurd (congrArg Prod.fst h) (by simp)
  | some pr =>
    rw [hpop] at h
    dsimp only at h
    have hq2 : q2.heap = pr.2 := by
      have := congrArg (fun p => p.2.heap) h
      simpa using this.symm
    rw [hq2]
    exact PyHeap.heappop_length Customer.lt q.heap pr.1 pr.2 (by rw [hpop])

theorem tryStartServiceStep_decreases (s1 s2 : LoopState) (time : ℚ)
    (h : tryStartServiceStep s1 time = some s2) :
    freeTellerCount s2.bank.tellers < freeTellerCount s1.bank.tellers ∧
    s2.bank.queue.heap.length < s1.bank.queue.heap.length := by
  rw [tryStartServiceStep] at h
  cases hassign : s1.bank.try_assign_customer_to_teller time with
  | none =>
    rw [hassign] at h
    exact absurd h (by simp)
  | some r =>
    rw [hassign] at h
    dsimp only at h
    have hbank : s2.bank = r.1 := by
      have := congrArg (fun p => p.bank) (Option.some_inj.mp h)
      simpa using this.symm
    rw [Bank.try_assign_customer_to_teller] at hassign
    cases hct : chooseTeller s1.bank.tellers with
    | none =>
      rw [hct] at hassign
      exact absurd hassign (by simp)
    | some i =>
      rw [hct] at hassign
      dsimp only at hassign
      cases hnext : s1.bank.queue.get_next_customer with
      | mk oc q2 =>
        cases oc with
        | none =>
          rw [hnext] at hassign
          exact absurd hassign (by simp)
        | some c =>
          rw [hnext] at hassign
          dsimp only at hassign
          obtain ⟨t, hti, htav⟩ := chooseTeller_spec s1.bank.tellers i hct
          rw [hti] at hassign
          dsimp only at hassign
          cases hss : t.start_service c time with
          | error e =>
            rw [hss] at hassign
            exact absurd hassign (by simp)
          | ok res =>
            rw [hss] at hassign
            dsimp only at hassign
            have hr : r = (⟨s1.bank.tellers.set i res.1, q2, s1.bank.is_open,
                s1.bank.total_customers_arrived, s1.bank.customers_turned_away⟩,
                i, res.1, res.2.1, res.2.2) := by
              exact (Option.some_inj.mp hassign).symm
            have hbusy : res.1.is_available = false :=
              start_service_makes_busy t c time res.1 res.2.1 res.2.2
                (by rw [hss])
            have hfree := freeTellerCount_set s1.bank.tellers i res.1 t hti htav hbusy
            have hqlen := get_next_customer_shrinks s1.bank.queue c q2 hnext
            rw [hbank, hr]
            dsimp only
            omega

theorem loop_terminates_aux (time : ℚ) :
    ∀ n (st : LoopState), freeTellerCount st.bank.tellers ≤ n →
      ∃ st2, tryStartServiceLoop time (n + 1) st = some st2 := by
  intro n
  induction n with
  | zero =>
    intro st h0
    rw [tryStartServiceLoop]
    cases hstep : tryStartServiceStep st time with
    | none => exact ⟨st, rfl⟩
    | some st2 =>
      have := (tryStartServiceStep_decreases st st2 time hstep).1
      exfalso
      omega
  | succ n ih =>
    intro st hle
    rw [tryStartServiceLoop]
    cases hstep : tryStartServiceStep st time with
    | none => exact ⟨st, rfl⟩
    | some st2 =>
      have hdec := (tryStartServiceStep_decreases st st2 time hstep).1
      exact ih st2 (by omega)

/-- C7: the controller assignment loop — repeatedly pick the longest-idle
available teller and the highest-priority waiting customer and start service,
until no teller is free or the line is empty — terminates: every successful
iteration strictly decreases both the number of free tellers and the queue
length, so running the loop with fuel one more than the current free-teller
count always reaches the loop exit instead of exhausting the fuel. -/
theorem claim7_assignment_loop_terminates (time : ℚ) (st : LoopState) :
    (∃ st2, tryStartServiceLoop time (freeTellerCount st.bank.tellers + 1) st =
      some st2) ∧
    (∀ s1 s2 : LoopState, tryStartServiceStep s1 time = some s2 →
      freeTellerCount s2.bank.tellers < freeTellerCount s1.bank.tellers ∧
      s2.bank.queue.heap.length < s1.bank.queue.heap.length) :=
  ⟨loop_terminates_aux time (freeTellerCount st.bank.tellers) st (le_refl _),
    fun s1 s2 h => tryStartServiceStep_decreases s1 s2 time h⟩

/-! ### `statistics.SimulationStatistics.get_average_queue_length` and the
prototype `metrics.Metrics.compute_results` -/

/-- The running total `total_weighted_length` accumulated by the loop of
`get_average_queue_length`: the sampled length times the duration to the next
sample, over consecutive sample pairs `(time, length)`. -/
def totalWeightedLength (samples : List (ℚ × Nat)) : ℚ :=
  ((samples.zip samples.tail).map (fun p => (p.1.2 : ℚ) * (p.2.1 - p.1.1))).sum

/-- The running total `total_time` accumulated by the same loop: the sum of
the durations between consecutive samples. -/
def totalTime (samples : List (ℚ × Nat)) : ℚ :=
  ((samples.zip samples.tail).map (fun p => p.2.1 - p.1.1)).sum

/-- `SimulationStatistics.get_average_queue_length()`: 0.0 without samples;
otherwise the weighted total divided by the total duration, guarded to 0.0
when the total duration is not positive. -/
def get_average_queue_length (samples : List (ℚ × Nat)) : ℚ :=
  if samples.isEmpty then 0
  else if 0 < totalTime samples then totalWeightedLength samples / totalTime samples
  else 0

/-- The wording of the spec for this metric: the area under the step function
formed by consecutive samples divided by the elapsed time between the first
and the last sample, with 0.0 when there are no samples or no elapsed time. -/
def specTimeWeightedAverage (samples : List (ℚ × Nat)) : ℚ :=
  match samples with
  | [] => 0
  | s0 :: rest =>
    match rest.getLast? with
    | none => 0
    | some sl =>
      if 0 < sl.1 - s0.1 then totalWeightedLength samples / (sl.1 - s0.1) else 0

/-- Prototype `metrics.Metrics` state. -/
structure Metrics where
  wait_times : List ℚ
  abandoned : Nat
  total_arrivals : Nat
  queue_lengths : List Nat

/-- The `queue_length_avg` entry of `Metrics.compute_results()`: the plain
arithmetic mean of the recorded queue-length samples, 0 when none were
recorded. -/
def Metrics.queue_length_avg (m : Metrics) : ℚ :=
  if m.queue_lengths.isEmpty then 0
  else ((m.queue_lengths.map (fun n => (n : ℚ))).sum) / (m.queue_lengths.length : ℚ)

theorem totalTime_cons (s0 s1 : ℚ × Nat) (rest : List (ℚ × Nat)) :
    totalTime (s0 :: s1 :: rest) = (s1.1 - s0.1) + totalTime (s1 :: rest) := by
  rw [totalTime, totalTime]
  simp

theorem totalTime_telescopes :
    ∀ (rest : List (ℚ × Nat)) (s0 sl : ℚ × Nat), rest.getLast? = some sl →
      totalTime (s0 :: rest) = sl.1 - s0.1 := by
  intro rest
  induction rest with
  | nil =>
    intro s0 sl hl
    exact absurd hl (by simp)
  | cons r rs ih =>
    intro s0 sl hl
    rw [totalTime_cons]
    cases rs with
    | nil =>
      have hr : r = sl := by simpa using hl
      have hz : totalTime [r] = 0 := rfl
      rw [hz, hr]
      ring
    | cons r2 rs2 =>
      have hlast : (r2 :: rs2).getLast? = some sl := by
        rw [List.getLast?_cons_cons] at hl
        exact hl
      rw [ih r sl hlast]
      ring

/-- C8 counterexample: for the samples (time 0, length 0), (time 10, length 4)
the time-weighted average is 0 — the length was 0 over the whole observed
window — and `SimulationStatistics.get_average_queue_length` indeed returns 0;
but the prototype `Metrics.compute_results`, fed the same two sampled
lengths, returns their arithmetic mean 2.  The claim that the
average-queue-length metric equals the time-weighted average rather than the
arithmetic mean of the samples is therefore false for
`Metrics.compute_results`. -/
theorem claim8_counterexample :
    get_average_queue_length [(0, 0), (10, 4)] = 0 ∧
    specTimeWeightedAverage [(0, 0), (10, 4)] = 0 ∧
    Metrics.queue_length_avg ⟨[], 0, 0, [0, 4]⟩ = 2 ∧
    (2 : ℚ) ≠ 0 := by
  refine ⟨?_, ?_, ?_, by norm_num⟩
  · rw [get_average_queue_length]
    norm_num [totalTime, totalWeightedLength]
  · rw [specTimeWeightedAverage]
    norm_num [totalWeightedLength]
  · rw [Metrics.queue_length_avg]
    norm_num

/-- C8 amended: `SimulationStatistics.get_average_queue_length` is exactly
the time-weighted average of the spec — the area under the step function over
consecutive samples divided by the elapsed time between first and last
sample — and returns 0.0 when there are no samples or no positive elapsed
time, never dividing by zero; the prototype `Metrics.compute_results` instead
returns the plain arithmetic mean of its recorded lengths (0 when none). -/
theorem claim8_queue_length_average (samples : List (ℚ × Nat)) (m : Metrics) :
    get_average_queue_length samples = specTimeWeightedAverage samples ∧
    get_average_queue_length [] = 0 ∧
    (totalTime samples ≤ 0 → get_average_queue_length samples = 0) ∧
    (m.queue_lengths = [] → m.queue_length_avg = 0) ∧
    (m.queue_lengths ≠ [] → m.queue_length_avg =
      ((m.queue_lengths.map (fun n => (n : ℚ))).sum) /
        (m.queue_lengths.length : ℚ)) := by
  refine ⟨?_, rfl, ?_, ?_, ?_⟩
  · cases hs : samples with
    | nil => rfl
    | cons s0 rest =>
      rw [get_average_queue_length, specTimeWeightedAverage]
      cases hl : rest.getLast? with
      | none =>
        have hrest : rest = [] := by
          cases hr2 : rest with
          | nil => rfl
          | cons a b =>
            rw [hr2] at hl
            exact absurd hl (by simp)
        rw [hrest]
        have hz : totalTime [s0] = 0 := rfl
        rw [if_neg (by simp), hz]
        norm_num
      | some sl =>
        have ht := totalTime_telescopes rest s0 sl hl
        rw [if_neg (by simp), ht]
  · intro hle
    rw [get_average_queue_length]
    by_cases he : samples.isEmpty
    · rw [if_pos he]
    · rw [if_neg he, if_neg (by linarith)]
  · intro hnil
    rw [Metrics.queue_length_avg, if_pos (by simp [hnil])]
  · intro hne
    rw [Metrics.queue_length_avg, if_neg (by simpa using hne)]

/-- Witness for C8 at a three-sample history with irregular spacing and a
non-empty prototype recording. -/
theorem claim8_witness :
    get_average_queue_length [(0, 2), (1, 6), (5, 0)] =
      specTimeWeightedAverage [(0, 2), (1, 6), (5, 0)] ∧
    get_average_queue_length [] = 0 ∧
    (totalTime [(0, 2), (1, 6), (5, 0)] ≤ 0 →
      get_average_queue_length [(0, 2), (1, 6), (5, 0)] = 0) ∧
    ((⟨[], 0, 0, [2, 6, 0]⟩ : Metrics).queue_lengths = [] →
      (⟨[], 0, 0, [2, 6, 0]⟩ : Metrics).queue_length_avg = 0) ∧
    ((⟨[], 0, 0, [2, 6, 0]⟩ : Metrics).queue_lengths ≠ [] →
      (⟨[], 0, 0, [2, 6, 0]⟩ : Metrics).queue_length_avg =
        (((⟨[], 0, 0, [2, 6, 0]⟩ : Metrics).queue_lengths.map (fun n => (n : ℚ))).sum) /
          (((⟨[], 0, 0, [2, 6, 0]⟩ : Metrics).queue_lengths.length : ℚ))) :=
  claim8_queue_length_average [(0, 2), (1, 6), (5, 0)] ⟨[], 0, 0, [2, 6, 0]⟩
